import Mathlib

/-!
Shallow embedding of the CQED-CI helper code (`helper_PFCI.py`): the bit-encoded
`Determinant` class, its orbital-list / sign / excitation operations, and the
`PFHamiltonianGenerator` matrix-assembly pipeline, together with proofs that
settle the frozen specification claims.

Python `while` loops over a shrinking bit pattern are embedded as structural
recursion on an explicit fuel argument (the fuel `bits + 1` always suffices
because the pattern at least halves each iteration); a congruence lemma shows
the result is fuel-independent, recovering the loop's defining equation.
Python integers holding orbital occupations are non-negative throughout the
source, so they are embedded as `ℕ`.  Python float arithmetic on matrix
elements is idealized as `ℝ`.
-/

namespace QEDCI

/-- Fuel-based loop body of `Determinant.countNumOrbitalsInBits`:
`while bits != 0: count += bits & 1; bits >>= 1`. -/
def cntAux : ℕ → ℕ → ℕ
  | 0, _ => 0
  | fuel + 1, bits =>
    if bits = 0 then 0
    else (if bits % 2 = 1 then 1 else 0) + cntAux fuel (bits / 2)

/-- `Determinant.countNumOrbitalsInBits`: population count of the occupation bits. -/
def countNumOrbitalsInBits (bits : ℕ) : ℕ := cntAux (bits + 1) bits

/-- Fuel-based loop body of `Determinant.countNumOrbitalsInBitsUpTo4`:
the popcount loop that additionally stops once the count reaches 4. -/
def cnt4Aux : ℕ → ℕ → ℕ → ℕ
  | 0, _, count => count
  | fuel + 1, bits, count =>
    if bits ≠ 0 ∧ count < 4 then
      cnt4Aux fuel (bits / 2) (count + if bits % 2 = 1 then 1 else 0)
    else count

/-- `Determinant.countNumOrbitalsInBitsUpTo4`: popcount capped at 4. -/
def countNumOrbitalsInBitsUpTo4 (bits : ℕ) : ℕ := cnt4Aux (bits + 1) bits 0

/-- Fuel-based loop body of `Determinant.obtBits2ObtIndexList`:
`while bits != 0: if bits & 1: obts.append(i); bits >>= 1; i += 1`. -/
def obtListAux : ℕ → ℕ → ℕ → List ℕ
  | 0, _, _ => []
  | fuel + 1, bits, i =>
    if bits = 0 then []
    else (if bits % 2 = 1 then [i] else []) ++ obtListAux fuel (bits / 2) (i + 1)

/-- `Determinant.obtBits2ObtIndexList`: ascending list of set-bit indices. -/
def obtBits2ObtIndexList (bits : ℕ) : List ℕ := obtListAux (bits + 1) bits 0

instance : IsTotal ℕ (fun a b : ℕ => b ≤ a) := ⟨fun a b => le_total b a⟩

instance : IsTrans ℕ (fun a b : ℕ => b ≤ a) := ⟨fun _ _ _ h1 h2 => le_trans h2 h1⟩

/-- Model of Python's stable descending sort `sorted(obtList, reverse=True)`
(insertion sort is a stable sorting algorithm, hence a faithful model). -/
def sortDesc (l : List ℕ) : List ℕ := List.insertionSort (fun a b => b ≤ a) l

/-- The accumulation loop of `Determinant.obtIndexList2ObtBits`:
`for i in sortedList: bits <<= iPre - i; bits |= 1; iPre = i`. -/
def bitsFoldStep (st : ℕ × ℕ) (i : ℕ) : ℕ × ℕ := ((st.1 <<< (st.2 - i)) ||| 1, i)

/-- `Determinant.obtIndexList2ObtBits`: build the occupation bit pattern from a
list of orbital indices (sorted descending first, then accumulated by shifting). -/
def obtIndexList2ObtBits (obtList : List ℕ) : ℕ :=
  if obtList.isEmpty then 0
  else
    let sortedList := sortDesc obtList
    let iPre := sortedList.headD 0
    let st := sortedList.foldl bitsFoldStep (1, iPre)
    st.1 <<< st.2

/-- Reference bit pattern: the union of the single-orbital patterns `1 <<< x`. -/
def orBits (l : List ℕ) : ℕ := l.foldr (fun x acc => (1 <<< x) ||| acc) 0

/-- A bit-Determinant: a pair of occupation bit patterns (`Determinant.__init__`
stores `alphaObtBits` and `betaObtBits`). -/
structure Determinant where
  alphaObtBits : ℕ
  betaObtBits : ℕ
deriving DecidableEq

instance : Inhabited Determinant := ⟨⟨0, 0⟩⟩

/-- `Determinant.getNumOrbitals`. -/
def getNumOrbitals (d : Determinant) : ℕ × ℕ :=
  (countNumOrbitalsInBits d.alphaObtBits, countNumOrbitalsInBits d.betaObtBits)

/-- `Determinant.getOrbitalIndexLists`. -/
def getOrbitalIndexLists (d : Determinant) : List ℕ × List ℕ :=
  (obtBits2ObtIndexList d.alphaObtBits, obtBits2ObtIndexList d.betaObtBits)

/-- `Determinant.mixIndexList`: spatial alpha index `e ↦ 2e`, beta `e ↦ 2e+1`,
alpha block first. -/
def mixIndexList (alphaList betaList : List ℕ) : List ℕ :=
  alphaList.map (fun e => e * 2) ++ betaList.map (fun e => e * 2 + 1)

/-- `Determinant.obtBits2ObtMixSpinIndexList`. -/
def obtBits2ObtMixSpinIndexList (alphaBits betaBits : ℕ) : List ℕ :=
  mixIndexList (obtBits2ObtIndexList alphaBits) (obtBits2ObtIndexList betaBits)

/-- `Determinant.getOrbitalMixedIndexList`. -/
def getOrbitalMixedIndexList (d : Determinant) : List ℕ :=
  obtBits2ObtMixSpinIndexList d.alphaObtBits d.betaObtBits

/-- The inner `while index < i` advance of `Determinant.getOrbitalPositions`,
with fuel `target - index` (exactly the number of iterations). -/
def posStepAux : ℕ → ℕ → ℕ → ℕ → ℕ → ℕ × ℕ × ℕ
  | 0, bits, index, count, _ => (bits, index, count)
  | fuel + 1, bits, index, count, target =>
    if index < target then
      posStepAux fuel (bits / 2) (index + 1) (count + if bits % 2 = 1 then 1 else 0) target
    else (bits, index, count)

def posStep (bits index count target : ℕ) : ℕ × ℕ × ℕ :=
  posStepAux (target - index) bits index count target

/-- The outer loop of `Determinant.getOrbitalPositions`: the running
`(bits, index, count)` state persists across the listed orbitals. -/
def getOrbitalPositionsAux : List ℕ → ℕ → ℕ → ℕ → List ℕ
  | [], _, _, _ => []
  | i :: rest, bits, index, count =>
    let st := posStep bits index count i
    st.2.2 :: getOrbitalPositionsAux rest st.1 st.2.1 st.2.2

/-- `Determinant.getOrbitalPositions`: for each listed orbital, the number of
occupied orbitals preceding it in the bit pattern. -/
def getOrbitalPositions (bits : ℕ) (orbitalIndexList : List ℕ) : List ℕ :=
  getOrbitalPositionsAux orbitalIndexList bits 0 0

/-- `Determinant.getOrbitalPositionLists`. -/
def getOrbitalPositionLists (d : Determinant) (alphaIndexList betaIndexList : List ℕ) :
    List ℕ × List ℕ :=
  (getOrbitalPositions d.alphaObtBits alphaIndexList,
   getOrbitalPositions d.betaObtBits betaIndexList)

/-- One spin channel of `Determinant.getSignToMoveOrbitalsToTheFront`:
`for i in range(len(positions)): if (positions[i] - i) % 2 == 1: sign = -sign`.
The subtraction is Python integer subtraction, hence over `ℤ`. -/
def signLoop : List ℕ → ℕ → ℤ
  | [], _ => 1
  | p :: rest, i =>
    (if ((p : ℤ) - (i : ℤ)) % 2 = 1 then (-1 : ℤ) else 1) * signLoop rest (i + 1)

/-- `Determinant.getSignToMoveOrbitalsToTheFront`. -/
def getSignToMoveOrbitalsToTheFront (d : Determinant) (alphaIndexList betaIndexList : List ℕ) : ℤ :=
  signLoop (getOrbitalPositions d.alphaObtBits alphaIndexList) 0 *
    signLoop (getOrbitalPositions d.betaObtBits betaIndexList) 0

/-- `Determinant.uniqueOrbitalsInBits`. -/
def uniqueOrbitalsInBits (bits1 bits2 : ℕ) : ℕ × ℕ :=
  (bits1 ^^^ (bits1 &&& bits2), bits2 ^^^ (bits1 &&& bits2))

/-- `Determinant.uniqueOrbitalsInLists`. -/
def uniqueOrbitalsInLists (bits1 bits2 : ℕ) : List ℕ × List ℕ :=
  (obtBits2ObtIndexList (uniqueOrbitalsInBits bits1 bits2).1,
   obtBits2ObtIndexList (uniqueOrbitalsInBits bits1 bits2).2)

/-- `Determinant.getUniqueOrbitalsInLists`. -/
def getUniqueOrbitalsInLists (d1 d2 : Determinant) :
    (List ℕ × List ℕ) × (List ℕ × List ℕ) :=
  (((uniqueOrbitalsInLists d1.alphaObtBits d2.alphaObtBits).1,
    (uniqueOrbitalsInLists d1.betaObtBits d2.betaObtBits).1),
   ((uniqueOrbitalsInLists d1.alphaObtBits d2.alphaObtBits).2,
    (uniqueOrbitalsInLists d1.betaObtBits d2.betaObtBits).2))

/-- `Determinant.getUniqueOrbitalsInListsPlusSign`: the unique orbital lists of
the two determinants and the sign `sign1 * sign2`. -/
def getUniqueOrbitalsInListsPlusSign (d1 d2 : Determinant) :
    (List ℕ × List ℕ) × (List ℕ × List ℕ) × ℤ :=
  ((((uniqueOrbitalsInLists d1.alphaObtBits d2.alphaObtBits).1,
     (uniqueOrbitalsInLists d1.betaObtBits d2.betaObtBits).1)),
   (((uniqueOrbitalsInLists d1.alphaObtBits d2.alphaObtBits).2,
     (uniqueOrbitalsInLists d1.betaObtBits d2.betaObtBits).2)),
   getSignToMoveOrbitalsToTheFront d1
       (uniqueOrbitalsInLists d1.alphaObtBits d2.alphaObtBits).1
       (uniqueOrbitalsInLists d1.betaObtBits d2.betaObtBits).1 *
     getSignToMoveOrbitalsToTheFront d2
       (uniqueOrbitalsInLists d1.alphaObtBits d2.alphaObtBits).2
       (uniqueOrbitalsInLists d1.betaObtBits d2.betaObtBits).2)

/-- `Determinant.getUniqueOrbitalsInMixIndexListsPlusSign`. -/
def getUniqueOrbitalsInMixIndexListsPlusSign (d1 d2 : Determinant) :
    List ℕ × List ℕ × ℤ :=
  (mixIndexList (getUniqueOrbitalsInListsPlusSign d1 d2).1.1
      (getUniqueOrbitalsInListsPlusSign d1 d2).1.2,
   mixIndexList (getUniqueOrbitalsInListsPlusSign d1 d2).2.1.1
      (getUniqueOrbitalsInListsPlusSign d1 d2).2.1.2,
   (getUniqueOrbitalsInListsPlusSign d1 d2).2.2)

/-- `Determinant.getCommonOrbitalsInLists`. -/
def getCommonOrbitalsInLists (d1 d2 : Determinant) : List ℕ × List ℕ :=
  (obtBits2ObtIndexList (d1.alphaObtBits &&& d2.alphaObtBits),
   obtBits2ObtIndexList (d1.betaObtBits &&& d2.betaObtBits))

/-- `Determinant.getCommonOrbitalsInMixedSpinIndexList`. -/
def getCommonOrbitalsInMixedSpinIndexList (d1 d2 : Determinant) : List ℕ :=
  mixIndexList (getCommonOrbitalsInLists d1 d2).1 (getCommonOrbitalsInLists d1 d2).2

/-- `Determinant.numberOfDiffOrbitals`: Python `/` is float division, embedded as `ℚ`. -/
def numberOfDiffOrbitals (d1 d2 : Determinant) : ℚ × ℚ :=
  ((countNumOrbitalsInBits (d1.alphaObtBits ^^^ d2.alphaObtBits) : ℚ) / 2,
   (countNumOrbitalsInBits (d1.betaObtBits ^^^ d2.betaObtBits) : ℚ) / 2)

/-- `Determinant.numberOfTotalDiffOrbitals`. -/
def numberOfTotalDiffOrbitals (d1 d2 : Determinant) : ℚ :=
  (numberOfDiffOrbitals d1 d2).1 + (numberOfDiffOrbitals d1 d2).2

/-- `Determinant.diff2OrLessOrbitals`: the capped-popcount short-circuit. -/
def diff2OrLessOrbitals (d1 d2 : Determinant) : Bool :=
  decide (countNumOrbitalsInBitsUpTo4 (d1.alphaObtBits ^^^ d2.alphaObtBits) +
    countNumOrbitalsInBitsUpTo4 (d1.betaObtBits ^^^ d2.betaObtBits) ≤ 4)

/-- `Determinant.addAlphaOrbital` / `addBetaOrbital` bit operation:
`bits |= 1 << orbitalIndex`. -/
def addOrbital (bits orbitalIndex : ℕ) : ℕ := bits ||| (1 <<< orbitalIndex)

/-- `Determinant.removeAlphaOrbital` / `removeBetaOrbital` bit operation.
Python clears the bit with `bits &= ~(1 << i)`; `ℕ` has no complement, so the
NOT-free equivalent `bits ^^^ (bits &&& (1 <<< i))` is used, which clears bit
`i` and leaves every other bit unchanged. -/
def removeOrbital (bits orbitalIndex : ℕ) : ℕ := bits ^^^ (bits &&& (1 <<< orbitalIndex))

/-- One spin channel of `Determinant.getUnoccupiedOrbitalsInLists`: the loop
walks `~bits` for `i in range(nmo)` appending `i` whenever the low bit of the
(two's-complement) complement is set, i.e. whenever bit `i` of `bits` is clear. -/
def getUnoccupiedOrbitalsInList (bits nmo : ℕ) : List ℕ :=
  (List.range nmo).filter (fun i => !(bits.testBit i))

/-- `Determinant.getUnoccupiedOrbitalsInLists`. -/
def getUnoccupiedOrbitalsInLists (d : Determinant) (nmo : ℕ) : List ℕ × List ℕ :=
  (getUnoccupiedOrbitalsInList d.alphaObtBits nmo,
   getUnoccupiedOrbitalsInList d.betaObtBits nmo)

/-- `Determinant.generateSingleExcitationsOfDet`: alpha singles (occupied `i`
ascending, unoccupied `j` ascending) followed by beta singles. -/
def generateSingleExcitationsOfDet (d : Determinant) (nmo : ℕ) : List Determinant :=
  ((obtBits2ObtIndexList d.alphaObtBits).flatMap fun i =>
    (getUnoccupiedOrbitalsInList d.alphaObtBits nmo).map fun j =>
      Determinant.mk (addOrbital (removeOrbital d.alphaObtBits i) j) d.betaObtBits) ++
  ((obtBits2ObtIndexList d.betaObtBits).flatMap fun k =>
    (getUnoccupiedOrbitalsInList d.betaObtBits nmo).map fun l =>
      Determinant.mk d.alphaObtBits (addOrbital (removeOrbital d.betaObtBits k) l))

/-- `itertools.combinations(l, 2)` in Python's order: pairs `(a, b)` with `a`
appearing before `b` in `l`. -/
def pairCombinations : List ℕ → List (ℕ × ℕ)
  | [] => []
  | x :: xs => (xs.map fun y => (x, y)) ++ pairCombinations xs

/-- The first loop block of `Determinant.generateDoubleExcitationsOfDet`:
mixed alpha+beta single-single combinations. -/
def mixedDoubleExcitations (d : Determinant) (nmo : ℕ) : List Determinant :=
  (obtBits2ObtIndexList d.alphaObtBits).flatMap fun i =>
    (getUnoccupiedOrbitalsInList d.alphaObtBits nmo).flatMap fun j =>
      (obtBits2ObtIndexList d.betaObtBits).flatMap fun k =>
        (getUnoccupiedOrbitalsInList d.betaObtBits nmo).map fun l =>
          Determinant.mk (addOrbital (removeOrbital d.alphaObtBits i) j)
            (addOrbital (removeOrbital d.betaObtBits k) l)

/-- The second loop block of `Determinant.generateDoubleExcitationsOfDet`:
alpha-alpha doubles via `combinations(alphaO, 2)` and `combinations(alphaU, 2)`. -/
def alphaDoubleExcitations (d : Determinant) (nmo : ℕ) : List Determinant :=
  (pairCombinations (obtBits2ObtIndexList d.alphaObtBits)).flatMap fun ii =>
    (pairCombinations (getUnoccupiedOrbitalsInList d.alphaObtBits nmo)).map fun jj =>
      Determinant.mk
        (addOrbital (removeOrbital (addOrbital (removeOrbital d.alphaObtBits ii.1) jj.1) ii.2) jj.2)
        d.betaObtBits

/-- The third loop block of `Determinant.generateDoubleExcitationsOfDet`:
beta-beta doubles. -/
def betaDoubleExcitations (d : Determinant) (nmo : ℕ) : List Determinant :=
  (pairCombinations (obtBits2ObtIndexList d.betaObtBits)).flatMap fun kk =>
    (pairCombinations (getUnoccupiedOrbitalsInList d.betaObtBits nmo)).map fun ll =>
      Determinant.mk d.alphaObtBits
        (addOrbital (removeOrbital (addOrbital (removeOrbital d.betaObtBits kk.1) ll.1) kk.2) ll.2)

/-- `Determinant.generateDoubleExcitationsOfDet`: the source appends the mixed
alpha+beta block first, then the alpha-alpha block, then the beta-beta block. -/
def generateDoubleExcitationsOfDet (d : Determinant) (nmo : ℕ) : List Determinant :=
  mixedDoubleExcitations d nmo ++ alphaDoubleExcitations d nmo ++ betaDoubleExcitations d nmo

/-- `Determinant.generateSingleAndDoubleExcitationsOfDet`. -/
def generateSingleAndDoubleExcitationsOfDet (d : Determinant) (nmo : ℕ) : List Determinant :=
  generateSingleExcitationsOfDet d nmo ++ generateDoubleExcitationsOfDet d nmo

/-- `itertools.combinations(l, k)` in Python's lexicographic order. -/
def combinations : ℕ → List ℕ → List (List ℕ)
  | 0, _ => [[]]
  | _ + 1, [] => []
  | k + 1, x :: xs => ((combinations k xs).map fun c => x :: c) ++ combinations (k + 1) xs

/-- The error taxonomy named by the specification (no code in the source ever
raises any of these). -/
inductive SpecError where
  | InvalidOccupation
  | UnsupportedCILevel
  | DimensionMismatch
  | ConvergenceFailure
deriving DecidableEq

/-- `Determinant.__init__`: Python constructors may raise, so the embedding
returns `Except`; the source body performs no validation and never raises, so
every input yields `.ok`.  A list argument is used only when the corresponding
bits argument is `0` and the list is not `None`. -/
def determinantInit (alphaObtBits betaObtBits : ℕ)
    (alphaObtList betaObtList : Option (List ℕ)) : Except SpecError Determinant :=
  let aBits :=
    match alphaObtList with
    | some l => if alphaObtBits = 0 then obtIndexList2ObtBits l else alphaObtBits
    | none => alphaObtBits
  let bBits :=
    match betaObtList with
    | some l => if betaObtBits = 0 then obtIndexList2ObtBits l else betaObtBits
    | none => betaObtBits
  Except.ok (Determinant.mk aBits bBits)

/-- `Determinant(alphaObtList=.., betaObtList=..)` as used by
`generateDeterminants`. -/
def determinantFromLists (alphaObtList betaObtList : List ℕ) : Determinant :=
  Determinant.mk (obtIndexList2ObtBits alphaObtList) (obtIndexList2ObtBits betaObtList)

/-- `PFHamiltonianGenerator.generateDeterminants`: the determinant basis for a
CI-level selector.  For `"cis"` the reference determinant followed by its
single excitations; for `"fci"` the Cartesian product of `ndocc`-subsets of
`range nmo` (alpha outer, beta inner); for any other selector the list stays
empty — the source raises nothing and simply proceeds with zero determinants. -/
def generateDeterminants (nmo ndocc : ℕ) (ci_level : String) : List Determinant :=
  if ci_level = "cis" then
    let occList := List.range ndocc
    let det_ref := determinantFromLists occList occList
    det_ref :: generateSingleExcitationsOfDet det_ref nmo
  else if ci_level = "fci" then
    (combinations ndocc (List.range nmo)).flatMap fun alpha =>
      (combinations ndocc (List.range nmo)).map fun beta =>
        determinantFromLists alpha beta
  else []

/-- `generateDeterminants` wrapped in `Except`: the Python method could raise,
but its body contains no `raise` statement, so the result is always `.ok`. -/
def generateDeterminantsE (nmo ndocc : ℕ) (ci_level : String) :
    Except SpecError (List Determinant) :=
  Except.ok (generateDeterminants nmo ndocc ci_level)

/-- Model of Python's builtin ascending stable sort `sorted(L)` (insertion
sort is stable). -/
def pySorted (l : List ℕ) : List ℕ := List.insertionSort (fun a b : ℕ => a ≤ b) l

/-- The spatial index of `spin_idx_to_spat_idx_and_spin`: `P/2` for even `P`
and `(P-1)/2` for odd `P`; over `ℕ` both equal `P / 2`. -/
def spatIdx (P : ℕ) : ℕ := P / 2

/-- The spin index of `spin_idx_to_spat_idx_and_spin`: `+1` for even `P`,
`-1` for odd `P`. -/
def spinOf (P : ℕ) : ℤ := if P % 2 = 0 then 1 else -1

/-- `map_spatial_dipole_to_spin`: dipole-matrix products with the
`<IJ||KL>` antisymmetrization and spin delta factors. -/
noncomputable def map_spatial_dipole_to_spin (mu : ℕ → ℕ → ℝ) (I J K L : ℕ) : ℝ :=
  (mu (spatIdx I) (spatIdx K) * mu (spatIdx J) (spatIdx L) *
      (if spinOf I = spinOf K then 1 else 0) * (if spinOf J = spinOf L then 1 else 0)) -
  (mu (spatIdx I) (spatIdx L) * mu (spatIdx J) (spatIdx K) *
      (if spinOf I = spinOf L then 1 else 0) * (if spinOf J = spinOf K then 1 else 0))

/-- The external inputs and configuration of `PFHamiltonianGenerator`: AO/MO
matrices and scalar constants come from the external mean-field collaborator
(`cqed_rhf`, psi4), which is out of the core's scope, so they are abstract
fields; `N_photon`, `omega_val`, `ignore_coupling` and `ci_level` are the
constructor arguments. -/
structure PFContext where
  nao : ℕ
  nmo : ℕ
  ndocc : ℕ
  N_p : ℕ
  omega : ℝ
  ignore_coupling : Bool
  ci_level : String
  T_ao : ℕ → ℕ → ℝ
  V_ao : ℕ → ℕ → ℝ
  q_PF_ao : ℕ → ℕ → ℝ
  d_PF_ao : ℕ → ℕ → ℝ
  Ca : ℕ → ℕ → ℝ
  d_cmo : ℕ → ℕ → ℝ
  eri_so : ℕ → ℕ → ℕ → ℕ → ℝ
  d_exp : ℝ
  Enuc : ℝ
  dc : ℝ

/-- The AO-basis effective one-electron matrix of `build1HSO`:
`H_1e_ao = T_ao + V_ao`, plus `q_PF_ao + d_PF_ao` unless coupling is ignored. -/
noncomputable def H_1e_ao (ctx : PFContext) (u v : ℕ) : ℝ :=
  ctx.T_ao u v + ctx.V_ao u v +
    (if ctx.ignore_coupling then 0 else ctx.q_PF_ao u v + ctx.d_PF_ao u v)

/-- The spatial-MO contraction `einsum("uj,vi,uv", Ca, Ca, H_1e_ao)` of
`build1HSO` (output index order `[i, j]`). -/
noncomputable def Hspatial (ctx : PFContext) (i j : ℕ) : ℝ :=
  ∑ u ∈ Finset.range ctx.nao, ∑ v ∈ Finset.range ctx.nao,
    ctx.Ca u j * ctx.Ca v i * H_1e_ao ctx u v

/-- The spin mask of `build1HSO`/`buildGSO`: the double `np.repeat` plus
`spin_ind` product keeps an element only when both spin-orbital indices have
the same parity. -/
noncomputable def spinMask (P Q : ℕ) : ℝ := if P % 2 = Q % 2 then 1 else 0

/-- `self.Hspin` built by `build1HSO`. -/
noncomputable def Hspin (ctx : PFContext) (P Q : ℕ) : ℝ :=
  Hspatial ctx (P / 2) (Q / 2) * spinMask P Q

/-- The spatial-MO contraction of the bare electronic one-electron operator
`T_ao + V_ao` only (no Pauli-Fierz one-electron terms). -/
noncomputable def HspatialBare (ctx : PFContext) (i j : ℕ) : ℝ :=
  ∑ u ∈ Finset.range ctx.nao, ∑ v ∈ Finset.range ctx.nao,
    ctx.Ca u j * ctx.Ca v i * (ctx.T_ao u v + ctx.V_ao u v)

/-- The spin-orbital one-electron matrix built from the bare `T + V` alone. -/
noncomputable def HspinBare (ctx : PFContext) (P Q : ℕ) : ℝ :=
  HspatialBare ctx (P / 2) (Q / 2) * spinMask P Q

/-- `self.TDI_spin` built by `build2DSO`: zero when coupling is ignored,
otherwise the dipole-dipole two-electron-like tensor. -/
noncomputable def TDI_spin (ctx : PFContext) (i j k l : ℕ) : ℝ :=
  if ctx.ignore_coupling then 0 else map_spatial_dipole_to_spin ctx.d_cmo i j k l

/-- `self.antiSym2eInt` built by `build2DSO`: `eri_so + TDI_spin`. -/
noncomputable def antiSym2eInt (ctx : PFContext) (i j k l : ℕ) : ℝ :=
  ctx.eri_so i j k l + TDI_spin ctx i j k l

/-- `self.g_so` built by `buildGSO`: `-sqrt(omega/2) * d_cmo` expanded to spin
orbitals, then multiplied by `0` when `ignore_coupling` is set. -/
noncomputable def g_so (ctx : PFContext) (P Q : ℕ) : ℝ :=
  (-(Real.sqrt (ctx.omega / 2)) * ctx.d_cmo (P / 2) (Q / 2) * spinMask P Q) *
    (if ctx.ignore_coupling then 0 else 1)

/-- `self.dets` built by `generateDeterminants`. -/
def dets (ctx : PFContext) : List Determinant :=
  generateDeterminants ctx.nmo ctx.ndocc ctx.ci_level

/-- `self.numDets`. -/
def numDets (ctx : PFContext) : ℕ := (dets ctx).length

/-- The identity-matrix entry used by `buildConstantMatrices`
(`np.identity(numDets)`). -/
noncomputable def identEntry (i j : ℕ) : ℝ := if i = j then 1 else 0

/-- `self.Enuc_so` of `buildConstantMatrices` (never zeroed by the flag). -/
noncomputable def Enuc_so (ctx : PFContext) (i j : ℕ) : ℝ := ctx.Enuc * identEntry i j

/-- `self.G_exp_so` of `buildConstantMatrices`:
`sqrt(omega/2) * d_exp * I`, multiplied by `0` when `ignore_coupling` is set. -/
noncomputable def G_exp_so (ctx : PFContext) (i j : ℕ) : ℝ :=
  (Real.sqrt (ctx.omega / 2) * ctx.d_exp * identEntry i j) *
    (if ctx.ignore_coupling then 0 else 1)

/-- `self.Omega_so` of `buildConstantMatrices`. -/
noncomputable def Omega_so (ctx : PFContext) (i j : ℕ) : ℝ :=
  (ctx.omega * identEntry i j) * (if ctx.ignore_coupling then 0 else 1)

/-- `self.dc_so` of `buildConstantMatrices`. -/
noncomputable def dc_so (ctx : PFContext) (i j : ℕ) : ℝ :=
  (ctx.dc * identEntry i j) * (if ctx.ignore_coupling then 0 else 1)

/-- `calcMatrixElementIdentialDet`: diagonal Slater-Condon element. -/
noncomputable def calcMatrixElementIdentialDet (ctx : PFContext) (det : Determinant) : ℝ :=
  (getOrbitalMixedIndexList det).foldl (fun acc m => acc + Hspin ctx m m) 0 +
    ∑ m ∈ Finset.range (getOrbitalMixedIndexList det).length,
      ∑ n ∈ Finset.Ico (m + 1) (getOrbitalMixedIndexList det).length,
        antiSym2eInt ctx ((getOrbitalMixedIndexList det).getD m 0)
          ((getOrbitalMixedIndexList det).getD n 0)
          ((getOrbitalMixedIndexList det).getD m 0)
          ((getOrbitalMixedIndexList det).getD n 0)

/-- `calcMatrixElementDiffIn2`. -/
noncomputable def calcMatrixElementDiffIn2 (ctx : PFContext) (det1 det2 : Determinant) : ℝ :=
  ((getUniqueOrbitalsInMixIndexListsPlusSign det1 det2).2.2 : ℝ) *
    antiSym2eInt ctx
      ((getUniqueOrbitalsInMixIndexListsPlusSign det1 det2).1.getD 0 0)
      ((getUniqueOrbitalsInMixIndexListsPlusSign det1 det2).1.getD 1 0)
      ((getUniqueOrbitalsInMixIndexListsPlusSign det1 det2).2.1.getD 0 0)
      ((getUniqueOrbitalsInMixIndexListsPlusSign det1 det2).2.1.getD 1 0)

/-- `calcMatrixElementDiffIn1`. -/
noncomputable def calcMatrixElementDiffIn1 (ctx : PFContext) (det1 det2 : Determinant) : ℝ :=
  ((getUniqueOrbitalsInMixIndexListsPlusSign det1 det2).2.2 : ℝ) *
    (Hspin ctx ((getUniqueOrbitalsInMixIndexListsPlusSign det1 det2).1.getD 0 0)
        ((getUniqueOrbitalsInMixIndexListsPlusSign det1 det2).2.1.getD 0 0) +
      (getCommonOrbitalsInMixedSpinIndexList det1 det2).foldl
        (fun acc n => acc +
          antiSym2eInt ctx ((getUniqueOrbitalsInMixIndexListsPlusSign det1 det2).1.getD 0 0) n
            ((getUniqueOrbitalsInMixIndexListsPlusSign det1 det2).2.1.getD 0 0) n) 0)

/-- `calcGMatrixElementDiffIn1`. -/
noncomputable def calcGMatrixElementDiffIn1 (ctx : PFContext) (det1 det2 : Determinant) : ℝ :=
  ((getUniqueOrbitalsInMixIndexListsPlusSign det1 det2).2.2 : ℝ) *
    g_so ctx ((getUniqueOrbitalsInMixIndexListsPlusSign det1 det2).1.getD 0 0)
      ((getUniqueOrbitalsInMixIndexListsPlusSign det1 det2).2.1.getD 0 0)

/-- `calcGMatrixElementIdentialDet`. -/
noncomputable def calcGMatrixElementIdentialDet (ctx : PFContext) (det : Determinant) : ℝ :=
  (getOrbitalMixedIndexList det).foldl (fun acc m => acc + g_so ctx m m) 0

/-- `calcApDMatrixElement`: the Slater-Condon excitation-distance dispatch for
the electronic block. -/
noncomputable def calcApDMatrixElement (ctx : PFContext) (det1 det2 : Determinant) : ℝ :=
  if diff2OrLessOrbitals det1 det2 then
    if numberOfTotalDiffOrbitals det1 det2 = 0 then calcMatrixElementIdentialDet ctx det1
    else if numberOfTotalDiffOrbitals det1 det2 = 2 then calcMatrixElementDiffIn2 ctx det1 det2
    else if numberOfTotalDiffOrbitals det1 det2 = 1 then calcMatrixElementDiffIn1 ctx det1 det2
    else 0
  else 0

/-- `calcGMatrixElement`: the distance dispatch for the coupling block (only
distances 0 and 1 are nonzero). -/
noncomputable def calcGMatrixElement (ctx : PFContext) (det1 det2 : Determinant) : ℝ :=
  if diff2OrLessOrbitals det1 det2 then
    if numberOfTotalDiffOrbitals det1 det2 = 0 then calcGMatrixElementIdentialDet ctx det1
    else if numberOfTotalDiffOrbitals det1 det2 = 1 then calcGMatrixElementDiffIn1 ctx det1 det2
    else 0
  else 0

/-- `self.ApDmatrix` after the `generatePFHMatrix` double loop: the element is
computed for every pair `i ≥ j` and mirrored to `(j, i)`. -/
noncomputable def ApDmatrix (ctx : PFContext) (i j : ℕ) : ℝ :=
  if j ≤ i then calcApDMatrixElement ctx ((dets ctx).getD i default) ((dets ctx).getD j default)
  else calcApDMatrixElement ctx ((dets ctx).getD j default) ((dets ctx).getD i default)

/-- `self.Gmatrix` after the `generatePFHMatrix` double loop. -/
noncomputable def Gmatrix (ctx : PFContext) (i j : ℕ) : ℝ :=
  if j ≤ i then calcGMatrixElement ctx ((dets ctx).getD i default) ((dets ctx).getD j default)
  else calcGMatrixElement ctx ((dets ctx).getD j default) ((dets ctx).getD i default)

/-- `self.H_PF` after the four block assignments of `generatePFHMatrix`
(indices range over `0 ≤ i, j < 2 * numDets`; the four assigned blocks are
disjoint, so the final state is this case split). -/
noncomputable def H_PF (ctx : PFContext) (i j : ℕ) : ℝ :=
  if i < numDets ctx ∧ j < numDets ctx then
    ApDmatrix ctx i j + Enuc_so ctx i j + dc_so ctx i j
  else if numDets ctx ≤ i ∧ numDets ctx ≤ j then
    ApDmatrix ctx (i - numDets ctx) (j - numDets ctx) +
      Enuc_so ctx (i - numDets ctx) (j - numDets ctx) +
      dc_so ctx (i - numDets ctx) (j - numDets ctx) +
      Omega_so ctx (i - numDets ctx) (j - numDets ctx)
  else if numDets ctx ≤ i ∧ j < numDets ctx then
    Gmatrix ctx (i - numDets ctx) j + G_exp_so ctx (i - numDets ctx) j
  else
    Gmatrix ctx i (j - numDets ctx) + G_exp_so ctx i (j - numDets ctx)

/-- The number of occupied orbitals preceding orbital `x` in the bit pattern:
the popcount of the bits below position `x`. -/
def precedingCount (bits x : ℕ) : ℕ := countNumOrbitalsInBits (bits % 2 ^ x)

/-- The sign formula asserted by the specification for one spin channel (the
comparison definition for the refinement claim about
`getSignToMoveOrbitalsToTheFront`): the sign starts at `+1` and flips once for
each unique orbital whose count of same-spin-channel occupied orbitals
preceding it in the bit pattern (before any removal) is odd. -/
def claimedChannelSign (bits : ℕ) (l : List ℕ) : ℤ :=
  l.foldr (fun x acc => (if precedingCount bits x % 2 = 1 then (-1 : ℤ) else 1) * acc) 1

/-- The combined sign asserted by the specification for
`getUniqueOrbitalsInListsPlusSign`: the claimed per-determinant signs over the
unique orbital lists, multiplied. -/
def claimedCombinedSign (d1 d2 : Determinant) : ℤ :=
  (claimedChannelSign d1.alphaObtBits (uniqueOrbitalsInLists d1.alphaObtBits d2.alphaObtBits).1 *
      claimedChannelSign d1.betaObtBits (uniqueOrbitalsInLists d1.betaObtBits d2.betaObtBits).1) *
    (claimedChannelSign d2.alphaObtBits (uniqueOrbitalsInLists d1.alphaObtBits d2.alphaObtBits).2 *
      claimedChannelSign d2.betaObtBits (uniqueOrbitalsInLists d1.betaObtBits d2.betaObtBits).2)

/-- Modelled from the spec: the general `(Np+1)`-photon Fock-state Hamiltonian
assembler (topology B of spec section 4.5) is not present in the source files
under `src` — `N_p` is stored by the constructor but never used, and
`generatePFHMatrix` hard-codes the two 0/1-photon blocks.  Following the
spec's words: for photon numbers `s, t` and determinant indices `i, j`, the
combined row/column index is `s*numDet + i`; an `s = t` block carries the
electronic element plus `omega * s` on the determinant diagonal; photon
adjacent blocks carry the coupling element scaled by `sqrt(t+1)` (raising,
`s = t+1`) or `sqrt(t)` (lowering, `s = t-1`); `|s-t| > 1` blocks are exactly
zero. -/
noncomputable def generalPFMatrix (ctx : PFContext) (row col : ℕ) : ℝ :=
  if row / numDets ctx = col / numDets ctx then
    (ApDmatrix ctx (row % numDets ctx) (col % numDets ctx) +
        Enuc_so ctx (row % numDets ctx) (col % numDets ctx) +
        dc_so ctx (row % numDets ctx) (col % numDets ctx)) +
      (if row % numDets ctx = col % numDets ctx then
        ctx.omega * ((row / numDets ctx : ℕ) : ℝ) else 0)
  else if row / numDets ctx = col / numDets ctx + 1 then
    (Gmatrix ctx (row % numDets ctx) (col % numDets ctx) +
        G_exp_so ctx (row % numDets ctx) (col % numDets ctx)) *
      Real.sqrt ((col / numDets ctx : ℕ) + 1)
  else if col / numDets ctx = row / numDets ctx + 1 then
    (Gmatrix ctx (row % numDets ctx) (col % numDets ctx) +
        G_exp_so ctx (row % numDets ctx) (col % numDets ctx)) *
      Real.sqrt ((col / numDets ctx : ℕ))
  else 0

/-- Whether a generated excitation `e` of the base determinant `d` changes
both spin channels (a mixed alpha+beta double) or not. -/
def isMixedExc (d e : Determinant) : Prop :=
  e.alphaObtBits ≠ d.alphaObtBits ∧ e.betaObtBits ≠ d.betaObtBits

instance (d e : Determinant) : Decidable (isMixedExc d e) := by
  unfold isMixedExc
  infer_instance

/-- Whether a generated excitation changes only the alpha channel relative to
the base determinant (an alpha-alpha same-spin double). -/
def isAlphaOnlyExc (d e : Determinant) : Prop :=
  e.alphaObtBits ≠ d.alphaObtBits ∧ e.betaObtBits = d.betaObtBits

instance (d e : Determinant) : Decidable (isAlphaOnlyExc d e) := by
  unfold isAlphaOnlyExc
  infer_instance

/-- Whether a generated excitation changes only the beta channel relative to
the base determinant (a beta-beta same-spin double). -/
def isBetaOnlyExc (d e : Determinant) : Prop :=
  e.alphaObtBits = d.alphaObtBits ∧ e.betaObtBits ≠ d.betaObtBits

instance (d e : Determinant) : Decidable (isBetaOnlyExc d e) := by
  unfold isBetaOnlyExc
  infer_instance

/-- The `(i, j, k, l)` loop-index tuples of the mixed alpha+beta block of
`generateDoubleExcitationsOfDet`, in the order the source's nested loops emit
them (alpha occupied `i` outermost, then alpha unoccupied `j`, then beta
occupied `k`, then beta unoccupied `l`). -/
def mixedDoubleTuples (d : Determinant) (nmo : ℕ) : List (ℕ × ℕ × ℕ × ℕ) :=
  (obtBits2ObtIndexList d.alphaObtBits).flatMap fun i =>
    (getUnoccupiedOrbitalsInList d.alphaObtBits nmo).flatMap fun j =>
      (obtBits2ObtIndexList d.betaObtBits).flatMap fun k =>
        (getUnoccupiedOrbitalsInList d.betaObtBits nmo).map fun l => (i, j, k, l)

/-- Rebuild the mixed-block determinant from its loop-index tuple. -/
def buildMixedDouble (d : Determinant) (t : ℕ × ℕ × ℕ × ℕ) : Determinant :=
  Determinant.mk (addOrbital (removeOrbital d.alphaObtBits t.1) t.2.1)
    (addOrbital (removeOrbital d.betaObtBits t.2.2.1) t.2.2.2)

/-- The `((i1,i2),(j1,j2))` combination tuples of the alpha-alpha block, in
the order `combinations(alphaO, 2)` (outer) and `combinations(alphaU, 2)`
(inner) emit them. -/
def alphaDoubleTuples (d : Determinant) (nmo : ℕ) : List ((ℕ × ℕ) × (ℕ × ℕ)) :=
  (pairCombinations (obtBits2ObtIndexList d.alphaObtBits)).flatMap fun ii =>
    (pairCombinations (getUnoccupiedOrbitalsInList d.alphaObtBits nmo)).map fun jj =>
      (ii, jj)

/-- Rebuild the alpha-alpha-block determinant from its combination tuple. -/
def buildAlphaDouble (d : Determinant) (t : (ℕ × ℕ) × (ℕ × ℕ)) : Determinant :=
  Determinant.mk
    (addOrbital (removeOrbital (addOrbital (removeOrbital d.alphaObtBits t.1.1) t.2.1) t.1.2)
      t.2.2)
    d.betaObtBits

/-- The `((k1,k2),(l1,l2))` combination tuples of the beta-beta block. -/
def betaDoubleTuples (d : Determinant) (nmo : ℕ) : List ((ℕ × ℕ) × (ℕ × ℕ)) :=
  (pairCombinations (obtBits2ObtIndexList d.betaObtBits)).flatMap fun kk =>
    (pairCombinations (getUnoccupiedOrbitalsInList d.betaObtBits nmo)).map fun ll =>
      (kk, ll)

/-- Rebuild the beta-beta-block determinant from its combination tuple. -/
def buildBetaDouble (d : Determinant) (t : (ℕ × ℕ) × (ℕ × ℕ)) : Determinant :=
  Determinant.mk d.alphaObtBits
    (addOrbital (removeOrbital (addOrbital (removeOrbital d.betaObtBits t.1.1) t.2.1) t.1.2)
      t.2.2)

/-- Strict lexicographic order on the mixed-block loop tuples `(i, j, k, l)`:
the alpha indices `(i, j)` are more significant than the beta indices
`(k, l)` — the alpha channel is the outer loop pair — and each component
ascends. -/
def lexLt4 (a b : ℕ × ℕ × ℕ × ℕ) : Prop :=
  a.1 < b.1 ∨ (a.1 = b.1 ∧ (a.2.1 < b.2.1 ∨ (a.2.1 = b.2.1 ∧
    (a.2.2.1 < b.2.2.1 ∨ (a.2.2.1 = b.2.2.1 ∧ a.2.2.2 < b.2.2.2)))))

/-- Strict lexicographic order on index pairs. -/
def pairLt (a b : ℕ × ℕ) : Prop := a.1 < b.1 ∨ (a.1 = b.1 ∧ a.2 < b.2)

/-- Strict lexicographic order on the same-spin-block combination tuples:
the occupied pair is more significant than the unoccupied pair. -/
def lexLtPairs (a b : (ℕ × ℕ) × (ℕ × ℕ)) : Prop :=
  pairLt a.1 b.1 ∨ (a.1 = b.1 ∧ pairLt a.2 b.2)

/-- The finite set of set-bit indices of a pattern (a set bit index `i`
satisfies `2^i ≤ bits`, hence `i < bits`). -/
def bitFinset (bits : ℕ) : Finset ℕ :=
  (Finset.range bits).filter (fun i => bits.testBit i = true)

/-- A concrete context (one spatial orbital, one doubly occupied orbital, CIS
level, coupling enabled, all external matrices zero) used to instantiate the
universally quantified theorems at explicit inputs. -/
noncomputable def ctxCIS : PFContext :=
  ⟨0, 1, 1, 2, 0, false, "cis",
   fun _ _ => 0, fun _ _ => 0, fun _ _ => 0, fun _ _ => 0,
   fun _ _ => 0, fun _ _ => 0, fun _ _ _ _ => 0, 0, 0, 0⟩

/-- The same concrete context with the coupling-disable flag set. -/
noncomputable def ctxIgnore : PFContext :=
  ⟨0, 1, 1, 2, 0, true, "cis",
   fun _ _ => 0, fun _ _ => 0, fun _ _ => 0, fun _ _ => 0,
   fun _ _ => 0, fun _ _ => 0, fun _ _ _ _ => 0, 0, 0, 0⟩

/-- The position-only part of the sign loop: one flip per listed position with
odd parity (the list-index correction stripped). -/
def plainSign (l : List ℕ) : ℤ :=
  l.foldr (fun p acc => (if p % 2 = 1 then (-1 : ℤ) else 1) * acc) 1

/-- The list-index correction factor of the sign loop: the product of
`(-1)^k` over `n` consecutive indices starting at `i`. -/
def altSign : ℕ → ℕ → ℤ
  | _, 0 => 1
  | i, n + 1 => (if i % 2 = 1 then (-1 : ℤ) else 1) * altSign (i + 1) n

theorem cntAux_congr (b : ℕ) : ∀ f g, b < f → b < g → cntAux f b = cntAux g b := by
  induction b using Nat.strong_induction_on with
  | _ b ih =>
    intro f g hf hg
    match f, g with
    | f + 1, g + 1 =>
      by_cases hb : b = 0
      · simp [cntAux, hb]
      · have hlt : b / 2 < b := Nat.div_lt_self (Nat.pos_of_ne_zero hb) one_lt_two
        simp only [cntAux, if_neg hb]
        rw [ih (b / 2) hlt f g (by omega) (by omega)]

/-- The defining equation of the source's popcount loop. -/
theorem countNumOrbitalsInBits_eq (bits : ℕ) :
    countNumOrbitalsInBits bits =
      if bits = 0 then 0
      else (if bits % 2 = 1 then 1 else 0) + countNumOrbitalsInBits (bits / 2) := by
  by_cases hb : bits = 0
  · simp [countNumOrbitalsInBits, cntAux, hb]
  · rw [if_neg hb]
    show cntAux (bits + 1) bits = _
    have hlt : bits / 2 < bits := Nat.div_lt_self (Nat.pos_of_ne_zero hb) one_lt_two
    simp only [cntAux, if_neg hb]
    congr 1
    exact cntAux_congr (bits / 2) bits (bits / 2 + 1) (by omega) (by omega)

/-- `countNumOrbitalsInBits` satisfies the low-bit unpeeling unconditionally. -/
theorem countNumOrbitalsInBits_bit (bits : ℕ) :
    countNumOrbitalsInBits bits =
      (if bits % 2 = 1 then 1 else 0) + countNumOrbitalsInBits (bits / 2) := by
  rw [countNumOrbitalsInBits_eq]
  by_cases hb : bits = 0
  · subst hb; simp [countNumOrbitalsInBits, cntAux]
  · rw [if_neg hb]

/-- Fuel-based loop body of `Determinant.countNumOrbitalsInBitsUpTo4`:
the popcount loop that additionally stops once the count reaches 4. -/

theorem cnt4Aux_spec (b : ℕ) :
    ∀ f c, b < f → c ≤ 4 → cnt4Aux f b c = min (c + countNumOrbitalsInBits b) 4 := by
  induction b using Nat.strong_induction_on with
  | _ b ih =>
    intro f c hf hc
    match f with
    | f + 1 =>
      by_cases hb : b = 0
      · subst hb
        have : countNumOrbitalsInBits 0 = 0 := by simp [countNumOrbitalsInBits, cntAux]
        simp [cnt4Aux, this, Nat.min_eq_left hc]
      · by_cases hcount : c < 4
        · have hlt : b / 2 < b := Nat.div_lt_self (Nat.pos_of_ne_zero hb) one_lt_two
          rw [cnt4Aux, if_pos ⟨hb, hcount⟩,
            ih (b / 2) hlt f _ (by omega) (by split <;> omega),
            countNumOrbitalsInBits_bit b]
          omega
        · have hc4 : c = 4 := by omega
          subst hc4
          rw [cnt4Aux, if_neg (by omega)]
          omega

/-- The capped popcount equals `min (popcount bits) 4`. -/
theorem countNumOrbitalsInBitsUpTo4_eq_min (bits : ℕ) :
    countNumOrbitalsInBitsUpTo4 bits = min (countNumOrbitalsInBits bits) 4 := by
  have := cnt4Aux_spec bits (bits + 1) 0 (Nat.lt_succ_self bits) (by omega)
  simpa [countNumOrbitalsInBitsUpTo4] using this

/-- Fuel-based loop body of `Determinant.obtBits2ObtIndexList`:
`while bits != 0: if bits & 1: obts.append(i); bits >>= 1; i += 1`. -/

theorem obtListAux_congr (b : ℕ) :
    ∀ f g i, b < f → b < g → obtListAux f b i = obtListAux g b i := by
  induction b using Nat.strong_induction_on with
  | _ b ih =>
    intro f g i hf hg
    match f, g with
    | f + 1, g + 1 =>
      by_cases hb : b = 0
      · simp [obtListAux, hb]
      · have hlt : b / 2 < b := Nat.div_lt_self (Nat.pos_of_ne_zero hb) one_lt_two
        simp only [obtListAux, if_neg hb]
        rw [ih (b / 2) hlt f g (i + 1) (by omega) (by omega)]

theorem obtBits2ObtIndexList_eq (bits : ℕ) :
    obtBits2ObtIndexList bits =
      if bits = 0 then []
      else (if bits % 2 = 1 then [0] else []) ++ obtListAux (bits + 1) (bits / 2) 1 := by
  by_cases hb : bits = 0
  · simp [obtBits2ObtIndexList, obtListAux, hb]
  · show obtListAux (bits + 1) bits 0 = _
    conv_lhs => rw [obtListAux, if_neg hb]
    have hlt : bits / 2 < bits := Nat.div_lt_self (Nat.pos_of_ne_zero hb) one_lt_two
    rw [obtListAux_congr (bits / 2) bits (bits + 1) 1 (by omega) (by omega), if_neg hb]

theorem mem_obtListAux (b : ℕ) :
    ∀ f i j, b < f → (j ∈ obtListAux f b i ↔ i ≤ j ∧ b.testBit (j - i) = true) := by
  induction b using Nat.strong_induction_on with
  | _ b ih =>
    intro f i j hf
    match f with
    | f + 1 =>
      by_cases hb : b = 0
      · simp [obtListAux, hb]
      · have hlt : b / 2 < b := Nat.div_lt_self (Nat.pos_of_ne_zero hb) one_lt_two
        rw [obtListAux, if_neg hb]
        have IH := ih (b / 2) hlt f (i + 1) j (by omega)
        constructor
        · intro hmem
          rcases List.mem_append.mp hmem with hl | hr
          · have hji : j = i := by
              by_cases hbit : b % 2 = 1 <;> simp [hbit] at hl
              · exact hl
            subst hji
            refine ⟨le_refl _, ?_⟩
            have hbit : b % 2 = 1 := by
              by_contra hbit
              simp [hbit] at hl
            simp [Nat.testBit_zero, hbit]
          · have := IH.mp hr
            refine ⟨by omega, ?_⟩
            have hsub : j - i = (j - (i + 1)) + 1 := by omega
            rw [hsub, Nat.testBit_succ]
            exact this.2
        · rintro ⟨hij, hbit⟩
          rcases Nat.lt_or_ge i j with hlt2 | hge
          · refine List.mem_append.mpr (Or.inr (IH.mpr ⟨by omega, ?_⟩))
            have hsub : j - i = (j - (i + 1)) + 1 := by omega
            rw [hsub, Nat.testBit_succ] at hbit
            exact hbit
          · have hji : j = i := by omega
            subst hji
            have : b % 2 = 1 := by
              have := hbit
              simp [Nat.testBit_zero] at this
              omega
            simp [this]

/-- Membership in the set-bit index list is exactly `testBit`. -/
theorem mem_obtBits2ObtIndexList (bits j : ℕ) :
    j ∈ obtBits2ObtIndexList bits ↔ bits.testBit j = true := by
  have := mem_obtListAux bits (bits + 1) 0 j (Nat.lt_succ_self bits)
  simpa [obtBits2ObtIndexList] using this

theorem obtListAux_lower :
    ∀ f b i j, j ∈ obtListAux f b i → i ≤ j := by
  intro f
  induction f with
  | zero => intro b i j h; simp [obtListAux] at h
  | succ f ih =>
    intro b i j h
    by_cases hb : b = 0
    · simp [obtListAux, hb] at h
    · simp only [obtListAux, if_neg hb] at h
      rcases List.mem_append.mp h with hl | hr
      · have hbit : b % 2 = 1 := by
          by_contra hbit
          simp [hbit] at hl
        simp [hbit] at hl
        omega
      · have := ih (b / 2) (i + 1) j hr
        omega

theorem obtListAux_sorted (b : ℕ) :
    ∀ f i, b < f → (obtListAux f b i).Sorted (· < ·) := by
  induction b using Nat.strong_induction_on with
  | _ b ih =>
    intro f i hf
    match f with
    | f + 1 =>
      by_cases hb : b = 0
      · simp [obtListAux, hb]
      · have hlt : b / 2 < b := Nat.div_lt_self (Nat.pos_of_ne_zero hb) one_lt_two
        rw [obtListAux, if_neg hb]
        have htail := ih (b / 2) hlt f (i + 1) (by omega)
        by_cases hbit : b % 2 = 1
        · rw [if_pos hbit, List.singleton_append]
          refine List.sorted_cons.mpr ⟨?_, htail⟩
          intro y hy
          have := (mem_obtListAux (b / 2) f (i + 1) y (by omega)).mp hy
          omega
        · simpa [hbit] using htail

/-- The set-bit index list is sorted strictly ascending. -/
theorem obtBits2ObtIndexList_sorted (bits : ℕ) :
    (obtBits2ObtIndexList bits).Sorted (· < ·) :=
  obtListAux_sorted bits (bits + 1) 0 (Nat.lt_succ_self bits)

theorem lor_shiftLeft (x y n : ℕ) : (x ||| y) <<< n = (x <<< n) ||| (y <<< n) := by
  apply Nat.eq_of_testBit_eq
  intro i
  simp [Nat.testBit_shiftLeft, Nat.testBit_or, Bool.and_or_distrib_left]

theorem testBit_orBits (l : List ℕ) (k : ℕ) :
    (orBits l).testBit k = decide (k ∈ l) := by
  induction l with
  | nil => simp [orBits]
  | cons x xs ih =>
    have hcons : orBits (x :: xs) = (1 <<< x) ||| orBits xs := rfl
    rw [hcons, Nat.testBit_or, ih, Nat.shiftLeft_eq, one_mul, Nat.testBit_two_pow]
    by_cases hx : k = x
    · subst hx; simp
    · simp [hx, Ne.symm hx]

theorem bitsFold_spec :
    ∀ (l : List ℕ) (b p : ℕ), (∀ x ∈ l, x ≤ p) → l.Sorted (fun a b : ℕ => b ≤ a) →
      (l.foldl bitsFoldStep (b, p)).1 <<< (l.foldl bitsFoldStep (b, p)).2 =
        (b <<< p) ||| orBits l := by
  intro l
  induction l with
  | nil => intro b p _ _; simp [orBits]
  | cons i rest ih =>
    intro b p hp hs
    have hip : i ≤ p := hp i (List.mem_cons_self i rest)
    have hrest : ∀ x ∈ rest, x ≤ i := List.rel_of_sorted_cons hs
    have hs2 : rest.Sorted (fun a b : ℕ => b ≤ a) := hs.of_cons
    have step1 : (i :: rest).foldl bitsFoldStep (b, p) =
        rest.foldl bitsFoldStep ((b <<< (p - i)) ||| 1, i) := rfl
    rw [step1, ih _ i hrest hs2]
    rw [lor_shiftLeft, ← Nat.shiftLeft_add, Nat.sub_add_cancel hip]
    show (b <<< p) ||| (1 <<< i) ||| orBits rest = (b <<< p) ||| ((1 <<< i) ||| orBits rest)
    rw [Nat.or_assoc]

/-- The bit pattern built by `obtIndexList2ObtBits` has exactly the listed
orbitals set: `testBit` is list membership. -/
theorem testBit_obtIndexList2ObtBits (L : List ℕ) (k : ℕ) :
    (obtIndexList2ObtBits L).testBit k = decide (k ∈ L) := by
  by_cases hL : L.isEmpty
  · rw [List.isEmpty_iff] at hL
    subst hL
    simp [obtIndexList2ObtBits]
  · have hperm : List.Perm (sortDesc L) L := List.perm_insertionSort _ L
    have hsorted : (sortDesc L).Sorted (fun a b : ℕ => b ≤ a) :=
      List.sorted_insertionSort _ L
    have hnil : sortDesc L ≠ [] := by
      intro h
      rw [List.isEmpty_iff] at hL
      rw [h] at hperm
      exact hL (List.Perm.nil_eq hperm).symm
    obtain ⟨hd, tl, hsl⟩ := List.exists_cons_of_ne_nil hnil
    have hbound : ∀ x ∈ sortDesc L, x ≤ hd := by
      intro x hx
      rw [hsl] at hx hsorted
      rcases List.mem_cons.mp hx with h | h
      · omega
      · exact List.rel_of_sorted_cons hsorted x h
    have hhead : (sortDesc L).headD 0 = hd := by rw [hsl]; rfl
    have hunfold : obtIndexList2ObtBits L =
        ((sortDesc L).foldl bitsFoldStep (1, (sortDesc L).headD 0)).1 <<<
          ((sortDesc L).foldl bitsFoldStep (1, (sortDesc L).headD 0)).2 := by
      unfold obtIndexList2ObtBits
      rw [if_neg hL]
    rw [hunfold, hhead, bitsFold_spec (sortDesc L) 1 hd hbound hsorted]
    rw [Nat.testBit_or, testBit_orBits, Nat.shiftLeft_eq, one_mul, Nat.testBit_two_pow]
    have hmem : (k ∈ sortDesc L) ↔ k ∈ L := hperm.mem_iff
    by_cases hk : k ∈ L
    · simp [hk, hmem.mpr hk]
    · have h2 : ¬ (k ∈ sortDesc L) := fun h => hk (hmem.mp h)
      have hne : ¬ (hd = k) := by
        intro he
        refine h2 ?_
        rw [hsl, he]
        exact List.mem_cons_self k tl
      simp [hk, h2, hne]

/-- The rational total excitation distance compared with 2, characterized by
the natural popcounts (used to evaluate the `ℚ` hypotheses at concrete inputs). -/
theorem totalDiff_le_two_iff (d1 d2 : Determinant) :
    numberOfTotalDiffOrbitals d1 d2 ≤ 2 ↔
      countNumOrbitalsInBits (d1.alphaObtBits ^^^ d2.alphaObtBits) +
        countNumOrbitalsInBits (d1.betaObtBits ^^^ d2.betaObtBits) ≤ 4 := by
  unfold numberOfTotalDiffOrbitals numberOfDiffOrbitals
  rw [div_add_div_same, div_le_iff₀ (by norm_num : (0 : ℚ) < 2)]
  constructor
  · intro h
    exact_mod_cast h
  · intro h
    exact_mod_cast h

/-- The strict version of `totalDiff_le_two_iff`. -/
theorem two_lt_totalDiff_iff (d1 d2 : Determinant) :
    2 < numberOfTotalDiffOrbitals d1 d2 ↔
      4 < countNumOrbitalsInBits (d1.alphaObtBits ^^^ d2.alphaObtBits) +
        countNumOrbitalsInBits (d1.betaObtBits ^^^ d2.betaObtBits) := by
  rw [← not_le, ← not_le, not_iff_not]
  exact totalDiff_le_two_iff d1 d2

/-- C10: for determinants with equal alpha and equal beta electron counts, if
the total excitation distance `numberOfTotalDiffOrbitals` is at most 2 then
the capped-popcount short-circuit `diff2OrLessOrbitals` returns `True`: the
fast test never excludes a determinant pair with a potentially nonzero
Slater-Condon matrix element. -/
theorem C10_diff2OrLess_complete (d1 d2 : Determinant)
    (ha : (getNumOrbitals d1).1 = (getNumOrbitals d2).1)
    (hb : (getNumOrbitals d1).2 = (getNumOrbitals d2).2)
    (hdist : numberOfTotalDiffOrbitals d1 d2 ≤ 2) :
    diff2OrLessOrbitals d1 d2 = true := by
  unfold diff2OrLessOrbitals
  rw [decide_eq_true_eq, countNumOrbitalsInBitsUpTo4_eq_min,
    countNumOrbitalsInBitsUpTo4_eq_min]
  unfold numberOfTotalDiffOrbitals numberOfDiffOrbitals at hdist
  set ca := countNumOrbitalsInBits (d1.alphaObtBits ^^^ d2.alphaObtBits) with hca
  set cb := countNumOrbitalsInBits (d1.betaObtBits ^^^ d2.betaObtBits) with hcb
  have h4 : (ca : ℚ) + (cb : ℚ) ≤ 4 := by linarith
  have h4n : ca + cb ≤ 4 := by exact_mod_cast h4
  omega

/-- C10 witness: the theorem applied at a concrete pair differing in one
alpha orbital. -/
theorem C10_witness :
    ((getNumOrbitals ⟨1, 1⟩).1 = (getNumOrbitals ⟨2, 1⟩).1 ∧
      (getNumOrbitals ⟨1, 1⟩).2 = (getNumOrbitals ⟨2, 1⟩).2 ∧
      numberOfTotalDiffOrbitals ⟨1, 1⟩ ⟨2, 1⟩ ≤ 2) ∧
    diff2OrLessOrbitals ⟨1, 1⟩ ⟨2, 1⟩ = true :=
  ⟨⟨by decide, by decide, (totalDiff_le_two_iff ⟨1, 1⟩ ⟨2, 1⟩).mpr (by decide)⟩,
   C10_diff2OrLess_complete ⟨1, 1⟩ ⟨2, 1⟩ (by decide) (by decide)
     ((totalDiff_le_two_iff ⟨1, 1⟩ ⟨2, 1⟩).mpr (by decide))⟩

/-- C2: for determinant pairs with equal alpha and equal beta electron counts
whose total excitation distance exceeds 2, `calcApDMatrixElement` returns
exactly 0 — including the cases where the capped-popcount short-circuit
`diff2OrLessOrbitals` returns `True`. -/
theorem C2_calcApD_zero_beyond_distance_two (ctx : PFContext) (d1 d2 : Determinant)
    (ha : (getNumOrbitals d1).1 = (getNumOrbitals d2).1)
    (hb : (getNumOrbitals d1).2 = (getNumOrbitals d2).2)
    (hdist : 2 < numberOfTotalDiffOrbitals d1 d2) :
    calcApDMatrixElement ctx d1 d2 = 0 := by
  unfold calcApDMatrixElement
  have h0 : ¬ (numberOfTotalDiffOrbitals d1 d2 = 0) := by
    intro h
    rw [h] at hdist
    norm_num at hdist
  have h2 : ¬ (numberOfTotalDiffOrbitals d1 d2 = 2) := by
    intro h
    rw [h] at hdist
    exact lt_irrefl _ hdist
  have h1 : ¬ (numberOfTotalDiffOrbitals d1 d2 = 1) := by
    intro h
    rw [h] at hdist
    norm_num at hdist
  cases hB : diff2OrLessOrbitals d1 d2
  · simp [hB]
  · simp [hB, h0, h1, h2]

/-- C2 witness: the theorem applied at a concrete pair with equal electron
counts, excitation distance 3, for which the short-circuit returns `True`. -/
theorem C2_witness :
    ((getNumOrbitals ⟨7, 7⟩).1 = (getNumOrbitals ⟨56, 7⟩).1 ∧
      (getNumOrbitals ⟨7, 7⟩).2 = (getNumOrbitals ⟨56, 7⟩).2 ∧
      2 < numberOfTotalDiffOrbitals ⟨7, 7⟩ ⟨56, 7⟩ ∧
      diff2OrLessOrbitals ⟨7, 7⟩ ⟨56, 7⟩ = true) ∧
    calcApDMatrixElement ctxCIS ⟨7, 7⟩ ⟨56, 7⟩ = 0 :=
  ⟨⟨by decide, by decide, (two_lt_totalDiff_iff ⟨7, 7⟩ ⟨56, 7⟩).mpr (by decide), by decide⟩,
   C2_calcApD_zero_beyond_distance_two ctxCIS ⟨7, 7⟩ ⟨56, 7⟩
     (by decide) (by decide) ((two_lt_totalDiff_iff ⟨7, 7⟩ ⟨56, 7⟩).mpr (by decide))⟩

/-- C5 counterexample: for the unrecognized selector `"ccsd"`, basis
generation does not fail with `UnsupportedCILevel` (or any error) — it
returns successfully with an empty determinant list, so construction proceeds
and produces (empty) numeric output. -/
theorem C5_counterexample :
    generateDeterminantsE 2 1 "ccsd" = Except.ok [] := rfl

/-- C5 amended: for every CI-level selector other than `"cis"` and `"fci"`,
basis generation raises no error at all; it succeeds with an empty determinant
list (`numDets = 0`) and construction proceeds. -/
theorem C5_amended_unknown_selector_ok (nmo ndocc : ℕ) (s : String)
    (h1 : s ≠ "cis") (h2 : s ≠ "fci") :
    generateDeterminantsE nmo ndocc s = Except.ok [] := by
  unfold generateDeterminantsE generateDeterminants
  rw [if_neg h1, if_neg h2]

/-- C5 witness: the amended theorem applied at a concrete unknown selector. -/
theorem C5_witness :
    ("casscf" ≠ "cis" ∧ "casscf" ≠ "fci") ∧
      generateDeterminantsE 3 1 "casscf" = Except.ok [] :=
  ⟨⟨by decide, by decide⟩,
   C5_amended_unknown_selector_ok 3 1 "casscf" (by decide) (by decide)⟩

/-- C6 counterexample: construction from orbital lists with a duplicated index
and an index `≥ nmo` (for any `nmo ≤ 5`) succeeds instead of failing with
`InvalidOccupation`; the duplicate is silently collapsed into the bit pattern
`{1, 5} = 34`. -/
theorem C6_counterexample :
    determinantInit 0 0 (some [1, 1, 5]) (some [0]) =
      Except.ok (Determinant.mk 34 1) := rfl

/-- C6 amended: creating a Determinant from alpha and beta occupied-orbital
index lists performs no validation and always succeeds (no `InvalidOccupation`
error exists in the code): duplicates are collapsed into the occupation set
and indices `≥ nmo` are accepted unchanged.  (A negative index would abort
Python's shift with a generic `ValueError`, not an `InvalidOccupation`; the
embedding covers the non-negative domain.) -/
theorem C6_amended_init_no_validation (aL bL : List ℕ) :
    determinantInit 0 0 (some aL) (some bL) =
      Except.ok (Determinant.mk (obtIndexList2ObtBits aL) (obtIndexList2ObtBits bL)) ∧
    obtIndexList2ObtBits aL = obtIndexList2ObtBits aL.dedup := by
  refine ⟨rfl, ?_⟩
  apply Nat.eq_of_testBit_eq
  intro i
  rw [testBit_obtIndexList2ObtBits, testBit_obtIndexList2ObtBits]
  simp [List.mem_dedup]

theorem foldl_add_zero (f : ℕ → ℝ) (hf : ∀ m, f m = 0) :
    ∀ (l : List ℕ) (a : ℝ), l.foldl (fun acc m => acc + f m) a = a := by
  intro l
  induction l with
  | nil => intro a; rfl
  | cons x xs ih =>
    intro a
    show xs.foldl (fun acc m => acc + f m) (a + f x) = a
    rw [hf x, add_zero]
    exact ih a

theorem g_so_zero_of_ignore (ctx : PFContext) (h : ctx.ignore_coupling = true)
    (P Q : ℕ) : g_so ctx P Q = 0 := by
  unfold g_so
  rw [h]
  simp

theorem calcGMatrixElement_zero_of_ignore (ctx : PFContext)
    (h : ctx.ignore_coupling = true) (d1 d2 : Determinant) :
    calcGMatrixElement ctx d1 d2 = 0 := by
  unfold calcGMatrixElement
  split_ifs with h1 h2 h3
  · unfold calcGMatrixElementIdentialDet
    exact foldl_add_zero (fun m => g_so ctx m m) (fun m => g_so_zero_of_ignore ctx h m m) _ 0
  · unfold calcGMatrixElementDiffIn1
    rw [g_so_zero_of_ignore ctx h, mul_zero]
  · rfl
  · rfl

/-- C4: when the coupling-disable flag is set, every cavity-coupling
contribution is exactly zero: the coupling matrix `g_so` vanishes, the
dipole-dipole two-electron-like tensor `TDI_spin` vanishes, the one-electron
Pauli-Fierz terms are omitted from `Hspin` (it equals the matrix built from
the bare `T + V` alone), the constants `G_exp_so`, `Omega_so`, `dc_so` are
zero matrices, and the off-diagonal photon blocks of `H_PF` are exactly 0. -/
theorem C4_ignore_coupling_all_zero (ctx : PFContext) (h : ctx.ignore_coupling = true) :
    (∀ P Q, g_so ctx P Q = 0) ∧
    (∀ i j k l, TDI_spin ctx i j k l = 0) ∧
    (∀ P Q, Hspin ctx P Q = HspinBare ctx P Q) ∧
    (∀ i j, G_exp_so ctx i j = 0 ∧ Omega_so ctx i j = 0 ∧ dc_so ctx i j = 0) ∧
    (∀ i j, i < numDets ctx → j < numDets ctx →
      H_PF ctx (numDets ctx + i) j = 0 ∧ H_PF ctx i (numDets ctx + j) = 0) := by
  have hGexp : ∀ i j, G_exp_so ctx i j = 0 := by
    intro i j
    unfold G_exp_so
    rw [h]
    simp
  have hGmat : ∀ i j, Gmatrix ctx i j = 0 := by
    intro i j
    unfold Gmatrix
    split_ifs <;> exact calcGMatrixElement_zero_of_ignore ctx h _ _
  refine ⟨g_so_zero_of_ignore ctx h, ?_, ?_, ?_, ?_⟩
  · intro i j k l
    unfold TDI_spin
    rw [h]
    simp
  · intro P Q
    unfold Hspin HspinBare Hspatial HspatialBare H_1e_ao
    rw [h]
    simp
  · intro i j
    refine ⟨hGexp i j, ?_, ?_⟩
    · unfold Omega_so
      rw [h]
      simp
    · unfold dc_so
      rw [h]
      simp
  · intro i j hi hj
    constructor
    · unfold H_PF
      rw [if_neg (by omega), if_neg (by omega), if_pos ⟨by omega, hj⟩,
        Nat.add_sub_cancel_left, hGmat, hGexp, add_zero]
    · unfold H_PF
      rw [if_neg (by omega), if_neg (by omega), if_neg (by omega),
        Nat.add_sub_cancel_left, hGmat, hGexp, add_zero]

/-- C4 witness: the theorem applied at the concrete disabled-coupling context,
projecting the off-diagonal-block conjunct at entry `(numDets + 0, 0)`. -/
theorem C4_witness :
    (ctxIgnore.ignore_coupling = true ∧ 0 < numDets ctxIgnore) ∧
      H_PF ctxIgnore (numDets ctxIgnore + 0) 0 = 0 :=
  ⟨⟨by decide, by decide⟩,
   ((C4_ignore_coupling_all_zero ctxIgnore (by decide)).2.2.2.2 0 0
     (by decide) (by decide)).1⟩

/-- C3: `generatePFHMatrix` produces the `2*numDets × 2*numDets` matrix whose
top-left block is `ApDmatrix + Enuc*I + dc*I`, whose bottom-right block is
`ApDmatrix + Enuc*I + dc*I + omega*I`, and whose two off-diagonal blocks both
equal `Gmatrix + G_exp*I`, where `ApDmatrix` and `Gmatrix` are computed
element-wise for every pair `i ≥ j` and mirrored to `(j, i)` (the broadcast
scalars `dc`, `omega`, `G_exp` are those of `buildConstantMatrices`, set to
exactly zero when coupling is disabled). -/
theorem C3_generatePFHMatrix_blocks (ctx : PFContext) (i j : ℕ)
    (hi : i < numDets ctx) (hj : j < numDets ctx) :
    H_PF ctx i j =
        ApDmatrix ctx i j +
          (ctx.Enuc + (if ctx.ignore_coupling then 0 else ctx.dc)) * identEntry i j ∧
    H_PF ctx (numDets ctx + i) (numDets ctx + j) =
        ApDmatrix ctx i j +
          (ctx.Enuc + (if ctx.ignore_coupling then 0 else ctx.dc) +
            (if ctx.ignore_coupling then 0 else ctx.omega)) * identEntry i j ∧
    H_PF ctx (numDets ctx + i) j =
        Gmatrix ctx i j +
          (if ctx.ignore_coupling then 0 else Real.sqrt (ctx.omega / 2) * ctx.d_exp) *
            identEntry i j ∧
    H_PF ctx i (numDets ctx + j) =
        Gmatrix ctx i j +
          (if ctx.ignore_coupling then 0 else Real.sqrt (ctx.omega / 2) * ctx.d_exp) *
            identEntry i j ∧
    ApDmatrix ctx i j = ApDmatrix ctx j i ∧
    Gmatrix ctx i j = Gmatrix ctx j i ∧
    (j ≤ i → ApDmatrix ctx i j =
      calcApDMatrixElement ctx ((dets ctx).getD i default) ((dets ctx).getD j default)) ∧
    (j ≤ i → Gmatrix ctx i j =
      calcGMatrixElement ctx ((dets ctx).getD i default) ((dets ctx).getD j default)) := by
  refine ⟨?_, ?_, ?_, ?_, ?_, ?_, ?_, ?_⟩
  · unfold H_PF
    rw [if_pos ⟨hi, hj⟩]
    unfold Enuc_so dc_so identEntry
    by_cases hic : ctx.ignore_coupling = true <;> by_cases hij : i = j <;>
      simp [hic, hij] <;> ring
  · unfold H_PF
    rw [if_neg (by omega), if_pos ⟨by omega, by omega⟩,
      Nat.add_sub_cancel_left, Nat.add_sub_cancel_left]
    unfold Enuc_so dc_so Omega_so identEntry
    by_cases hic : ctx.ignore_coupling = true <;> by_cases hij : i = j <;>
      simp [hic, hij] <;> ring
  · unfold H_PF
    rw [if_neg (by omega), if_neg (by omega), if_pos ⟨by omega, hj⟩,
      Nat.add_sub_cancel_left]
    unfold G_exp_so identEntry
    by_cases hic : ctx.ignore_coupling = true <;> by_cases hij : i = j <;>
      simp [hic, hij] <;> ring
  · unfold H_PF
    rw [if_neg (by omega), if_neg (by omega), if_neg (by omega),
      Nat.add_sub_cancel_left]
    unfold G_exp_so identEntry
    by_cases hic : ctx.ignore_coupling = true <;> by_cases hij : i = j <;>
      simp [hic, hij] <;> ring
  · unfold ApDmatrix
    by_cases h1 : j ≤ i <;> by_cases h2 : i ≤ j
    · have hij : i = j := le_antisymm h2 h1
      subst hij
      rfl
    · rw [if_pos h1, if_neg h2]
    · rw [if_neg h1, if_pos h2]
    · omega
  · unfold Gmatrix
    by_cases h1 : j ≤ i <;> by_cases h2 : i ≤ j
    · have hij : i = j := le_antisymm h2 h1
      subst hij
      rfl
    · rw [if_pos h1, if_neg h2]
    · rw [if_neg h1, if_pos h2]
    · omega
  · intro hle
    unfold ApDmatrix
    rw [if_pos hle]
  · intro hle
    unfold Gmatrix
    rw [if_pos hle]

/-- C3 witness: the theorem applied at the concrete context and entry `(0,0)`. -/
theorem C3_witness :
    (0 < numDets ctxCIS) ∧
    (H_PF ctxCIS 0 0 =
        ApDmatrix ctxCIS 0 0 +
          (ctxCIS.Enuc + (if ctxCIS.ignore_coupling then 0 else ctxCIS.dc)) *
            identEntry 0 0 ∧
      H_PF ctxCIS (numDets ctxCIS + 0) (numDets ctxCIS + 0) =
        ApDmatrix ctxCIS 0 0 +
          (ctxCIS.Enuc + (if ctxCIS.ignore_coupling then 0 else ctxCIS.dc) +
            (if ctxCIS.ignore_coupling then 0 else ctxCIS.omega)) * identEntry 0 0 ∧
      H_PF ctxCIS (numDets ctxCIS + 0) 0 =
        Gmatrix ctxCIS 0 0 +
          (if ctxCIS.ignore_coupling then 0
            else Real.sqrt (ctxCIS.omega / 2) * ctxCIS.d_exp) * identEntry 0 0 ∧
      H_PF ctxCIS 0 (numDets ctxCIS + 0) =
        Gmatrix ctxCIS 0 0 +
          (if ctxCIS.ignore_coupling then 0
            else Real.sqrt (ctxCIS.omega / 2) * ctxCIS.d_exp) * identEntry 0 0 ∧
      ApDmatrix ctxCIS 0 0 = ApDmatrix ctxCIS 0 0 ∧
      Gmatrix ctxCIS 0 0 = Gmatrix ctxCIS 0 0 ∧
      ((0 : ℕ) ≤ 0 → ApDmatrix ctxCIS 0 0 =
        calcApDMatrixElement ctxCIS ((dets ctxCIS).getD 0 default)
          ((dets ctxCIS).getD 0 default)) ∧
      ((0 : ℕ) ≤ 0 → Gmatrix ctxCIS 0 0 =
        calcGMatrixElement ctxCIS ((dets ctxCIS).getD 0 default)
          ((dets ctxCIS).getD 0 default))) :=
  ⟨by decide, C3_generatePFHMatrix_blocks ctxCIS 0 0 (by decide) (by decide)⟩

/-- C8: in the general `(Np+1)`-photon Fock-state matrix (modelled from the
spec, see `generalPFMatrix`), with combined row/column index `s*numDet + i`,
every block with `|s - t| > 1` is exactly 0, photon-adjacent blocks carry the
coupling element scaled by `sqrt(t+1)` (raising, `s = t+1`) or `sqrt(t)`
(lowering, `s = t-1`), and the `s = t` diagonal adds `omega * s`. -/
theorem C8_generalPFMatrix_blocks (ctx : PFContext) (s t i j : ℕ)
    (hi : i < numDets ctx) (hj : j < numDets ctx)
    (hs : s ≤ ctx.N_p) (ht : t ≤ ctx.N_p) :
    ((t + 1 < s ∨ s + 1 < t) →
      generalPFMatrix ctx (s * numDets ctx + i) (t * numDets ctx + j) = 0) ∧
    (s = t + 1 →
      generalPFMatrix ctx (s * numDets ctx + i) (t * numDets ctx + j) =
        (Gmatrix ctx i j + G_exp_so ctx i j) * Real.sqrt (t + 1)) ∧
    (t = s + 1 →
      generalPFMatrix ctx (s * numDets ctx + i) (t * numDets ctx + j) =
        (Gmatrix ctx i j + G_exp_so ctx i j) * Real.sqrt t) ∧
    (s = t →
      generalPFMatrix ctx (s * numDets ctx + i) (t * numDets ctx + j) =
        (ApDmatrix ctx i j + Enuc_so ctx i j + dc_so ctx i j) +
          (if i = j then ctx.omega * (s : ℝ) else 0)) := by
  have hn : 0 < numDets ctx := Nat.pos_of_ne_zero (by omega)
  have hdiv : ∀ a b : ℕ, b < numDets ctx → (a * numDets ctx + b) / numDets ctx = a := by
    intro a b hb
    rw [Nat.mul_comm, Nat.mul_add_div hn, Nat.div_eq_of_lt hb, Nat.add_zero]
  have hmod : ∀ a b : ℕ, b < numDets ctx → (a * numDets ctx + b) % numDets ctx = b := by
    intro a b hb
    rw [Nat.mul_comm, Nat.mul_add_mod, Nat.mod_eq_of_lt hb]
  unfold generalPFMatrix
  rw [hdiv s i hi, hdiv t j hj, hmod s i hi, hmod t j hj]
  refine ⟨?_, ?_, ?_, ?_⟩
  · intro hfar
    rw [if_neg (by omega), if_neg (by omega), if_neg (by omega)]
  · intro hst
    rw [if_neg (by omega), if_pos hst]
  · intro hts
    rw [if_neg (by omega), if_neg (by omega), if_pos hts]
  · intro hst
    subst hst
    rw [if_pos rfl]

/-- C8 witness: the theorem applied at the concrete context with `Np = 2`,
projecting the `|s-t| > 1` conjunct at `s = 0`, `t = 2`. -/
theorem C8_witness :
    (0 < numDets ctxCIS ∧ (0 : ℕ) ≤ ctxCIS.N_p ∧ (2 : ℕ) ≤ ctxCIS.N_p ∧
      (0 : ℕ) + 1 < 2) ∧
    generalPFMatrix ctxCIS (0 * numDets ctxCIS + 0) (2 * numDets ctxCIS + 0) = 0 :=
  ⟨⟨by decide, by decide, by decide, by decide⟩,
   (C8_generalPFMatrix_blocks ctxCIS 0 2 0 0 (by decide) (by decide)
     (by decide) (by decide)).1 (Or.inr (by decide))⟩

theorem addOrbital_testBit_self (b x : ℕ) : (addOrbital b x).testBit x = true := by
  unfold addOrbital
  rw [Nat.testBit_or, Nat.shiftLeft_eq, one_mul, Nat.testBit_two_pow_self]
  simp

theorem excite_ne (b i j : ℕ) (hj : b.testBit j = false) :
    addOrbital (removeOrbital b i) j ≠ b := by
  intro he
  have h1 : (addOrbital (removeOrbital b i) j).testBit j = true :=
    addOrbital_testBit_self _ j
  rw [he, hj] at h1
  exact Bool.noConfusion h1

theorem mem_getUnoccupiedOrbitalsInList (bits nmo x : ℕ) :
    x ∈ getUnoccupiedOrbitalsInList bits nmo ↔ x < nmo ∧ bits.testBit x = false := by
  unfold getUnoccupiedOrbitalsInList
  rw [List.mem_filter, List.mem_range]
  simp

theorem mixed_mem_isMixed (d : Determinant) (nmo : ℕ) (e : Determinant)
    (he : e ∈ mixedDoubleExcitations d nmo) : isMixedExc d e := by
  unfold mixedDoubleExcitations at he
  simp only [List.mem_flatMap, List.mem_map] at he
  obtain ⟨i, hi, j, hjmem, k, hk, l, hl, heq⟩ := he
  have hja := (mem_getUnoccupiedOrbitalsInList d.alphaObtBits nmo j).mp hjmem
  have hlb := (mem_getUnoccupiedOrbitalsInList d.betaObtBits nmo l).mp hl
  subst heq
  exact ⟨excite_ne d.alphaObtBits i j hja.2, excite_ne d.betaObtBits k l hlb.2⟩

theorem alpha_mem_beta_eq (d : Determinant) (nmo : ℕ) (e : Determinant)
    (he : e ∈ alphaDoubleExcitations d nmo) : e.betaObtBits = d.betaObtBits := by
  unfold alphaDoubleExcitations at he
  simp only [List.mem_flatMap, List.mem_map] at he
  obtain ⟨ii, hii, jj, hjj, heq⟩ := he
  subst heq
  rfl

theorem beta_mem_alpha_eq (d : Determinant) (nmo : ℕ) (e : Determinant)
    (he : e ∈ betaDoubleExcitations d nmo) : e.alphaObtBits = d.alphaObtBits := by
  unfold betaDoubleExcitations at he
  simp only [List.mem_flatMap, List.mem_map] at he
  obtain ⟨kk, hkk, ll, hll, heq⟩ := he
  subst heq
  rfl

/-- C7 counterexample: for the determinant `{0,1}α{0,1}β` with `nmo = 4`, the
first generated double excitation (index 0) is a mixed alpha+beta double while
the same-spin alpha-alpha double sits at index 16 — the opposite of the claim
that same-spin doubles precede mixed ones. -/
theorem C7_counterexample :
    (generateDoubleExcitationsOfDet ⟨3, 3⟩ 4).length = 18 ∧
    isMixedExc ⟨3, 3⟩ ((generateDoubleExcitationsOfDet ⟨3, 3⟩ 4).getD 0 default) ∧
    ¬ isMixedExc ⟨3, 3⟩ ((generateDoubleExcitationsOfDet ⟨3, 3⟩ 4).getD 16 default) := by
  decide

/-- Every non-mixed entry of the double-excitation list comes strictly after
every mixed entry (the mixed block is emitted first). -/
theorem mixedExc_before_sameSpinExc (d : Determinant) (nmo : ℕ) (i j : ℕ)
    (hi : i < (generateDoubleExcitationsOfDet d nmo).length)
    (hj : j < (generateDoubleExcitationsOfDet d nmo).length)
    (hnotmix : ¬ isMixedExc d ((generateDoubleExcitationsOfDet d nmo).getD i default))
    (hmix : isMixedExc d ((generateDoubleExcitationsOfDet d nmo).getD j default)) :
    j < i := by
  have hassoc : generateDoubleExcitationsOfDet d nmo =
      mixedDoubleExcitations d nmo ++
        (alphaDoubleExcitations d nmo ++ betaDoubleExcitations d nmo) := by
    unfold generateDoubleExcitationsOfDet
    rw [List.append_assoc]
  have hile : (mixedDoubleExcitations d nmo).length ≤ i := by
    by_contra hc
    push_neg at hc
    have : (generateDoubleExcitationsOfDet d nmo).getD i default ∈
        mixedDoubleExcitations d nmo := by
      rw [hassoc, List.getD_append _ _ _ _ hc, List.getD_eq_getElem _ _ hc]
      exact List.getElem_mem hc
    exact hnotmix (mixed_mem_isMixed d nmo _ this)
  have hjlt : j < (mixedDoubleExcitations d nmo).length := by
    by_contra hc
    push_neg at hc
    have hrest : (generateDoubleExcitationsOfDet d nmo).getD j default ∈
        alphaDoubleExcitations d nmo ++ betaDoubleExcitations d nmo := by
      rw [hassoc] at hj
      rw [List.length_append] at hj
      have hj2 : j - (mixedDoubleExcitations d nmo).length <
          (alphaDoubleExcitations d nmo ++ betaDoubleExcitations d nmo).length := by
        omega
      rw [hassoc, List.getD_append_right _ _ _ _ hc, List.getD_eq_getElem _ _ hj2]
      exact List.getElem_mem hj2
    rcases List.mem_append.mp hrest with hA | hB
    · exact hmix.2 (alpha_mem_beta_eq d nmo _ hA) |>.elim
    · exact hmix.1 (beta_mem_alpha_eq d nmo _ hB) |>.elim
  omega

/-- Every beta-beta entry of the double-excitation list comes strictly after
every alpha-alpha entry (the alpha-alpha block is emitted before the
beta-beta block). -/
theorem betaOnly_after_alphaOnly (d : Determinant) (nmo : ℕ) (i j : ℕ)
    (hi : i < (generateDoubleExcitationsOfDet d nmo).length)
    (hj : j < (generateDoubleExcitationsOfDet d nmo).length)
    (hbo : isBetaOnlyExc d ((generateDoubleExcitationsOfDet d nmo).getD i default))
    (hao : isAlphaOnlyExc d ((generateDoubleExcitationsOfDet d nmo).getD j default)) :
    j < i := by
  have hassoc : generateDoubleExcitationsOfDet d nmo =
      mixedDoubleExcitations d nmo ++
        (alphaDoubleExcitations d nmo ++ betaDoubleExcitations d nmo) := by
    unfold generateDoubleExcitationsOfDet
    rw [List.append_assoc]
  have hlen : (generateDoubleExcitationsOfDet d nmo).length =
      (mixedDoubleExcitations d nmo).length +
        ((alphaDoubleExcitations d nmo).length + (betaDoubleExcitations d nmo).length) := by
    rw [hassoc, List.length_append, List.length_append]
  have hjlt : j < (mixedDoubleExcitations d nmo).length +
      (alphaDoubleExcitations d nmo).length := by
    by_contra hc
    push_neg at hc
    have hmem : (generateDoubleExcitationsOfDet d nmo).getD j default ∈
        betaDoubleExcitations d nmo := by
      have hb2 : (j - (mixedDoubleExcitations d nmo).length) -
          (alphaDoubleExcitations d nmo).length <
          (betaDoubleExcitations d nmo).length := by omega
      rw [hassoc, List.getD_append_right _ _ _ _ (by omega),
        List.getD_append_right _ _ _ _ (by omega), List.getD_eq_getElem _ _ hb2]
      exact List.getElem_mem hb2
    exact hao.1 (beta_mem_alpha_eq d nmo _ hmem)
  have hile : (mixedDoubleExcitations d nmo).length +
      (alphaDoubleExcitations d nmo).length ≤ i := by
    by_contra hc
    push_neg at hc
    by_cases hm : i < (mixedDoubleExcitations d nmo).length
    · have hmem : (generateDoubleExcitationsOfDet d nmo).getD i default ∈
          mixedDoubleExcitations d nmo := by
        rw [hassoc, List.getD_append _ _ _ _ hm, List.getD_eq_getElem _ _ hm]
        exact List.getElem_mem hm
      exact (mixed_mem_isMixed d nmo _ hmem).1 hbo.1
    · have ha2 : i - (mixedDoubleExcitations d nmo).length <
          (alphaDoubleExcitations d nmo).length := by omega
      have hmem : (generateDoubleExcitationsOfDet d nmo).getD i default ∈
          alphaDoubleExcitations d nmo := by
        rw [hassoc, List.getD_append_right _ _ _ _ (by omega),
          List.getD_append _ _ _ _ ha2, List.getD_eq_getElem _ _ ha2]
        exact List.getElem_mem ha2
      exact hbo.2 (alpha_mem_beta_eq d nmo _ hmem)
  omega

/-- One spin channel's unoccupied orbital list ascends strictly (it is a
filter of `range nmo`). -/
theorem getUnoccupiedOrbitalsInList_sorted (bits nmo : ℕ) :
    (getUnoccupiedOrbitalsInList bits nmo).Pairwise (· < ·) :=
  List.Pairwise.sublist (List.filter_sublist _) (List.pairwise_lt_range nmo)

theorem mem_pairCombinations :
    ∀ (l : List ℕ) (p : ℕ × ℕ), p ∈ pairCombinations l → p.1 ∈ l ∧ p.2 ∈ l := by
  intro l
  induction l with
  | nil => intro p hp; simp [pairCombinations] at hp
  | cons x xs ih =>
    intro p hp
    simp only [pairCombinations, List.mem_append, List.mem_map] at hp
    rcases hp with ⟨y, hy, rfl⟩ | hp
    · exact ⟨List.mem_cons_self x xs, List.mem_cons_of_mem x hy⟩
    · have h2 := ih p hp
      exact ⟨List.mem_cons_of_mem x h2.1, List.mem_cons_of_mem x h2.2⟩

/-- `combinations(l, 2)` of a strictly ascending list yields only ascending
pairs. -/
theorem pairCombinations_fst_lt_snd :
    ∀ (l : List ℕ), l.Pairwise (· < ·) → ∀ p ∈ pairCombinations l, p.1 < p.2 := by
  intro l
  induction l with
  | nil => intro _ p hp; simp [pairCombinations] at hp
  | cons x xs ih =>
    intro hs p hp
    simp only [pairCombinations, List.mem_append, List.mem_map] at hp
    rcases hp with ⟨y, hy, rfl⟩ | hp
    · exact List.rel_of_pairwise_cons hs hy
    · exact ih (List.Pairwise.of_cons hs) p hp

/-- `combinations(l, 2)` of a strictly ascending list is itself strictly
ascending in the lexicographic pair order. -/
theorem pairCombinations_pairwise :
    ∀ (l : List ℕ), l.Pairwise (· < ·) → (pairCombinations l).Pairwise pairLt := by
  intro l
  induction l with
  | nil => intro _; simp [pairCombinations]
  | cons x xs ih =>
    intro hs
    show ((xs.map fun y => (x, y)) ++ pairCombinations xs).Pairwise pairLt
    refine List.pairwise_append.mpr ⟨?_, ih (List.Pairwise.of_cons hs), ?_⟩
    · refine List.pairwise_map.mpr ?_
      exact (List.Pairwise.of_cons hs).imp fun hab => Or.inr ⟨rfl, hab⟩
    · intro a ha b hb
      simp only [List.mem_map] at ha
      obtain ⟨y, hy, rfl⟩ := ha
      have hb1 := (mem_pairCombinations xs b hb).1
      exact Or.inl (List.rel_of_pairwise_cons hs hb1)

theorem mem_quad_inner3 {i j k : ℕ} {uB : List ℕ} {x : ℕ × ℕ × ℕ × ℕ}
    (hx : x ∈ uB.map fun l => (i, j, k, l)) :
    x.1 = i ∧ x.2.1 = j ∧ x.2.2.1 = k := by
  simp only [List.mem_map] at hx
  obtain ⟨l, _, rfl⟩ := hx
  exact ⟨rfl, rfl, rfl⟩

theorem mem_quad_inner2 {i j : ℕ} {oB uB : List ℕ} {x : ℕ × ℕ × ℕ × ℕ}
    (hx : x ∈ oB.flatMap fun k => uB.map fun l => (i, j, k, l)) :
    x.1 = i ∧ x.2.1 = j := by
  simp only [List.mem_flatMap, List.mem_map] at hx
  obtain ⟨k, _, l, _, rfl⟩ := hx
  exact ⟨rfl, rfl⟩

theorem mem_quad_inner1 {i : ℕ} {uA oB uB : List ℕ} {x : ℕ × ℕ × ℕ × ℕ}
    (hx : x ∈ uA.flatMap fun j => oB.flatMap fun k => uB.map fun l => (i, j, k, l)) :
    x.1 = i := by
  simp only [List.mem_flatMap, List.mem_map] at hx
  obtain ⟨j, _, k, _, l, _, rfl⟩ := hx
  rfl

/-- The mixed-block loop tuples are emitted in strictly ascending
lexicographic order: alpha occupied, alpha unoccupied, beta occupied, beta
unoccupied, most significant first. -/
theorem mixedDoubleTuples_pairwise (d : Determinant) (nmo : ℕ) :
    (mixedDoubleTuples d nmo).Pairwise lexLt4 := by
  unfold mixedDoubleTuples
  refine List.pairwise_flatMap.mpr ⟨?_, ?_⟩
  · intro i _
    refine List.pairwise_flatMap.mpr ⟨?_, ?_⟩
    · intro j _
      refine List.pairwise_flatMap.mpr ⟨?_, ?_⟩
      · intro k _
        refine List.pairwise_map.mpr ?_
        exact (getUnoccupiedOrbitalsInList_sorted d.betaObtBits nmo).imp
          fun hab => Or.inr ⟨rfl, Or.inr ⟨rfl, Or.inr ⟨rfl, hab⟩⟩⟩
      · refine (obtBits2ObtIndexList_sorted d.betaObtBits).imp ?_
        intro k1 k2 hk x hx y hy
        obtain ⟨hx1, hx2, hx3⟩ := mem_quad_inner3 hx
        obtain ⟨hy1, hy2, hy3⟩ := mem_quad_inner3 hy
        exact Or.inr ⟨hx1.trans hy1.symm, Or.inr ⟨hx2.trans hy2.symm,
          Or.inl (by rw [hx3, hy3]; exact hk)⟩⟩
    · refine (getUnoccupiedOrbitalsInList_sorted d.alphaObtBits nmo).imp ?_
      intro j1 j2 hj x hx y hy
      obtain ⟨hx1, hx2⟩ := mem_quad_inner2 hx
      obtain ⟨hy1, hy2⟩ := mem_quad_inner2 hy
      exact Or.inr ⟨hx1.trans hy1.symm, Or.inl (by rw [hx2, hy2]; exact hj)⟩
  · refine (obtBits2ObtIndexList_sorted d.alphaObtBits).imp ?_
    intro i1 i2 hi x hx y hy
    have hx1 := mem_quad_inner1 hx
    have hy1 := mem_quad_inner1 hy
    exact Or.inl (by rw [hx1, hy1]; exact hi)

/-- The alpha-alpha-block combination tuples are emitted in strictly
ascending lexicographic order (occupied pair most significant). -/
theorem alphaDoubleTuples_pairwise (d : Determinant) (nmo : ℕ) :
    (alphaDoubleTuples d nmo).Pairwise lexLtPairs := by
  unfold alphaDoubleTuples
  refine List.pairwise_flatMap.mpr ⟨?_, ?_⟩
  · intro ii _
    refine List.pairwise_map.mpr ?_
    exact (pairCombinations_pairwise _
        (getUnoccupiedOrbitalsInList_sorted d.alphaObtBits nmo)).imp
      fun hab => Or.inr ⟨rfl, hab⟩
  · refine (pairCombinations_pairwise _
      (obtBits2ObtIndexList_sorted d.alphaObtBits)).imp ?_
    intro ii1 ii2 hii x hx y hy
    simp only [List.mem_map] at hx hy
    obtain ⟨jj1, _, rfl⟩ := hx
    obtain ⟨jj2, _, rfl⟩ := hy
    exact Or.inl hii

/-- The beta-beta-block combination tuples are emitted in strictly ascending
lexicographic order. -/
theorem betaDoubleTuples_pairwise (d : Determinant) (nmo : ℕ) :
    (betaDoubleTuples d nmo).Pairwise lexLtPairs := by
  unfold betaDoubleTuples
  refine List.pairwise_flatMap.mpr ⟨?_, ?_⟩
  · intro kk _
    refine List.pairwise_map.mpr ?_
    exact (pairCombinations_pairwise _
        (getUnoccupiedOrbitalsInList_sorted d.betaObtBits nmo)).imp
      fun hab => Or.inr ⟨rfl, hab⟩
  · refine (pairCombinations_pairwise _
      (obtBits2ObtIndexList_sorted d.betaObtBits)).imp ?_
    intro kk1 kk2 hkk x hx y hy
    simp only [List.mem_map] at hx hy
    obtain ⟨ll1, _, rfl⟩ := hx
    obtain ⟨ll2, _, rfl⟩ := hy
    exact Or.inl hkk

/-- Every combination tuple of the alpha-alpha block has both of its pairs
ascending (`i1 < i2` and `j1 < j2`). -/
theorem alphaDoubleTuples_asc (d : Determinant) (nmo : ℕ) :
    ∀ t ∈ alphaDoubleTuples d nmo, t.1.1 < t.1.2 ∧ t.2.1 < t.2.2 := by
  intro t ht
  unfold alphaDoubleTuples at ht
  simp only [List.mem_flatMap, List.mem_map] at ht
  obtain ⟨ii, hii, jj, hjj, rfl⟩ := ht
  exact ⟨pairCombinations_fst_lt_snd _ (obtBits2ObtIndexList_sorted d.alphaObtBits) ii hii,
    pairCombinations_fst_lt_snd _
      (getUnoccupiedOrbitalsInList_sorted d.alphaObtBits nmo) jj hjj⟩

/-- Every combination tuple of the beta-beta block has both of its pairs
ascending. -/
theorem betaDoubleTuples_asc (d : Determinant) (nmo : ℕ) :
    ∀ t ∈ betaDoubleTuples d nmo, t.1.1 < t.1.2 ∧ t.2.1 < t.2.2 := by
  intro t ht
  unfold betaDoubleTuples at ht
  simp only [List.mem_flatMap, List.mem_map] at ht
  obtain ⟨kk, hkk, ll, hll, rfl⟩ := ht
  exact ⟨pairCombinations_fst_lt_snd _ (obtBits2ObtIndexList_sorted d.betaObtBits) kk hkk,
    pairCombinations_fst_lt_snd _
      (getUnoccupiedOrbitalsInList_sorted d.betaObtBits nmo) ll hll⟩

/-- The mixed block is exactly the constructor mapped over its loop-tuple
enumeration. -/
theorem mixedDoubleExcitations_eq_map (d : Determinant) (nmo : ℕ) :
    mixedDoubleExcitations d nmo = (mixedDoubleTuples d nmo).map (buildMixedDouble d) := by
  unfold mixedDoubleExcitations mixedDoubleTuples buildMixedDouble
  simp only [List.map_flatMap, List.map_map]
  rfl

/-- The alpha-alpha block is exactly the constructor mapped over its
combination-tuple enumeration. -/
theorem alphaDoubleExcitations_eq_map (d : Determinant) (nmo : ℕ) :
    alphaDoubleExcitations d nmo = (alphaDoubleTuples d nmo).map (buildAlphaDouble d) := by
  unfold alphaDoubleExcitations alphaDoubleTuples buildAlphaDouble
  simp only [List.map_flatMap, List.map_map]
  rfl

/-- The beta-beta block is exactly the constructor mapped over its
combination-tuple enumeration. -/
theorem betaDoubleExcitations_eq_map (d : Determinant) (nmo : ℕ) :
    betaDoubleExcitations d nmo = (betaDoubleTuples d nmo).map (buildBetaDouble d) := by
  unfold betaDoubleExcitations betaDoubleTuples buildBetaDouble
  simp only [List.map_flatMap, List.map_map]
  rfl

/-- C7 amended: `generateDoubleExcitationsOfDet` is a deterministic pure
function returning a reproducible list in which all mixed alpha+beta
single-single combinations precede all same-spin-channel double excitations,
the alpha-alpha doubles precede the beta-beta doubles, and the orbital
indices are enumerated in ascending order with alpha before beta: every
non-mixed entry comes strictly after every mixed entry; every beta-beta-only
entry comes strictly after every alpha-alpha-only entry; and each block is
the constructor mapped over its loop-index tuple list, where the mixed
tuples `(i, j, k, l)` ascend strictly lexicographically with the alpha pair
`(i, j)` more significant than the beta pair `(k, l)`, the same-spin
combination tuples ascend strictly lexicographically, and every combination
pair is itself ascending. -/
theorem C7_double_excitation_ordering (d : Determinant) (nmo : ℕ) :
    (∀ i j, i < (generateDoubleExcitationsOfDet d nmo).length →
        j < (generateDoubleExcitationsOfDet d nmo).length →
        ¬ isMixedExc d ((generateDoubleExcitationsOfDet d nmo).getD i default) →
        isMixedExc d ((generateDoubleExcitationsOfDet d nmo).getD j default) →
        j < i) ∧
    (∀ i j, i < (generateDoubleExcitationsOfDet d nmo).length →
        j < (generateDoubleExcitationsOfDet d nmo).length →
        isBetaOnlyExc d ((generateDoubleExcitationsOfDet d nmo).getD i default) →
        isAlphaOnlyExc d ((generateDoubleExcitationsOfDet d nmo).getD j default) →
        j < i) ∧
    (mixedDoubleExcitations d nmo = (mixedDoubleTuples d nmo).map (buildMixedDouble d) ∧
      (mixedDoubleTuples d nmo).Pairwise lexLt4) ∧
    (alphaDoubleExcitations d nmo = (alphaDoubleTuples d nmo).map (buildAlphaDouble d) ∧
      (alphaDoubleTuples d nmo).Pairwise lexLtPairs ∧
      ∀ t ∈ alphaDoubleTuples d nmo, t.1.1 < t.1.2 ∧ t.2.1 < t.2.2) ∧
    (betaDoubleExcitations d nmo = (betaDoubleTuples d nmo).map (buildBetaDouble d) ∧
      (betaDoubleTuples d nmo).Pairwise lexLtPairs ∧
      ∀ t ∈ betaDoubleTuples d nmo, t.1.1 < t.1.2 ∧ t.2.1 < t.2.2) :=
  ⟨fun i j => mixedExc_before_sameSpinExc d nmo i j,
   fun i j => betaOnly_after_alphaOnly d nmo i j,
   ⟨mixedDoubleExcitations_eq_map d nmo, mixedDoubleTuples_pairwise d nmo⟩,
   ⟨alphaDoubleExcitations_eq_map d nmo, alphaDoubleTuples_pairwise d nmo,
    alphaDoubleTuples_asc d nmo⟩,
   ⟨betaDoubleExcitations_eq_map d nmo, betaDoubleTuples_pairwise d nmo,
    betaDoubleTuples_asc d nmo⟩⟩

/-- C7 witness: the ordering theorem applied at the concrete determinant
`{0,1}α{0,1}β`, `nmo = 4`: the mixed double at index 0 precedes the
alpha-alpha double at index 16, which precedes the beta-beta double at
index 17. -/
theorem C7_witness :
    (16 < (generateDoubleExcitationsOfDet ⟨3, 3⟩ 4).length ∧
      0 < (generateDoubleExcitationsOfDet ⟨3, 3⟩ 4).length ∧
      17 < (generateDoubleExcitationsOfDet ⟨3, 3⟩ 4).length ∧
      ¬ isMixedExc ⟨3, 3⟩ ((generateDoubleExcitationsOfDet ⟨3, 3⟩ 4).getD 16 default) ∧
      isMixedExc ⟨3, 3⟩ ((generateDoubleExcitationsOfDet ⟨3, 3⟩ 4).getD 0 default) ∧
      isBetaOnlyExc ⟨3, 3⟩ ((generateDoubleExcitationsOfDet ⟨3, 3⟩ 4).getD 17 default) ∧
      isAlphaOnlyExc ⟨3, 3⟩ ((generateDoubleExcitationsOfDet ⟨3, 3⟩ 4).getD 16 default)) ∧
    (0 : ℕ) < 16 ∧ (16 : ℕ) < 17 :=
  ⟨⟨by decide, by decide, by decide, by decide, by decide, by decide, by decide⟩,
   (C7_double_excitation_ordering ⟨3, 3⟩ 4).1 16 0
     (by decide) (by decide) (by decide) (by decide),
   (C7_double_excitation_ordering ⟨3, 3⟩ 4).2.1 17 16
     (by decide) (by decide) (by decide) (by decide)⟩

theorem sorted_lt_eq_of_mem_iff :
    ∀ (l1 l2 : List ℕ), l1.Sorted (· < ·) → l2.Sorted (· < ·) →
      (∀ x, x ∈ l1 ↔ x ∈ l2) → l1 = l2 := by
  intro l1
  induction l1 with
  | nil =>
    intro l2 _ _ hm
    cases l2 with
    | nil => rfl
    | cons b t2 =>
      have := (hm b).mpr (List.mem_cons_self b t2)
      simp at this
  | cons a t1 ih =>
    intro l2 hs1 hs2 hm
    cases l2 with
    | nil =>
      have := (hm a).mp (List.mem_cons_self a t1)
      simp at this
    | cons b t2 =>
      have hab : a = b := by
        have ha2 : a ∈ b :: t2 := (hm a).mp (List.mem_cons_self a t1)
        have hb1 : b ∈ a :: t1 := (hm b).mpr (List.mem_cons_self b t2)
        rcases List.mem_cons.mp ha2 with h | h
        · exact h
        · have hba : b < a := List.rel_of_sorted_cons hs2 a h
          rcases List.mem_cons.mp hb1 with h2 | h2
          · omega
          · have : a < b := List.rel_of_sorted_cons hs1 b h2
            omega
      subst hab
      congr 1
      apply ih t2 hs1.of_cons hs2.of_cons
      intro x
      constructor
      · intro hx
        have hax : a < x := List.rel_of_sorted_cons hs1 x hx
        have : x ∈ a :: t2 := (hm x).mp (List.mem_cons_of_mem a hx)
        rcases List.mem_cons.mp this with h | h
        · omega
        · exact h
      · intro hx
        have hax : a < x := List.rel_of_sorted_cons hs2 x hx
        have : x ∈ a :: t1 := (hm x).mpr (List.mem_cons_of_mem a hx)
        rcases List.mem_cons.mp this with h | h
        · omega
        · exact h

/-- C9: for every list `L` of distinct orbital indices, converting to
occupation bits and back yields `sorted(L)`:
`obtBits2ObtIndexList (obtIndexList2ObtBits L) = sorted L`. -/
theorem C9_roundtrip (L : List ℕ) (hnd : L.Nodup) :
    obtBits2ObtIndexList (obtIndexList2ObtBits L) = pySorted L := by
  apply sorted_lt_eq_of_mem_iff
  · exact obtBits2ObtIndexList_sorted _
  · have hsorted : (pySorted L).Sorted (fun a b : ℕ => a ≤ b) :=
      List.sorted_insertionSort _ L
    have hperm : List.Perm (pySorted L) L := List.perm_insertionSort _ L
    have hnd2 : (pySorted L).Nodup := hperm.nodup_iff.mpr hnd
    have hand := List.Pairwise.and hsorted hnd2
    exact hand.imp (fun hab => lt_of_le_of_ne hab.1 hab.2)
  · intro x
    rw [mem_obtBits2ObtIndexList, testBit_obtIndexList2ObtBits, decide_eq_true_eq]
    exact (List.perm_insertionSort _ L).mem_iff.symm

/-- C9 witness: the theorem applied at the concrete distinct list `[5, 0, 2]`,
whose round trip evaluates to `[0, 2, 5]`. -/
theorem C9_witness :
    ([5, 0, 2] : List ℕ).Nodup ∧
      obtBits2ObtIndexList (obtIndexList2ObtBits [5, 0, 2]) = pySorted [5, 0, 2] ∧
      pySorted [5, 0, 2] = [0, 2, 5] :=
  ⟨by decide, C9_roundtrip [5, 0, 2] (by decide), by decide⟩

theorem mod_two_pow_succ (b k : ℕ) : b % 2 ^ (k + 1) = b % 2 + 2 * (b / 2 % 2 ^ k) := by
  rw [pow_succ']
  exact Nat.mod_mul

theorem cnt_two_mul_add (r m : ℕ) (hr : r < 2) :
    countNumOrbitalsInBits (r + 2 * m) =
      (if r = 1 then 1 else 0) + countNumOrbitalsInBits m := by
  rw [countNumOrbitalsInBits_bit (r + 2 * m)]
  have h1 : (r + 2 * m) % 2 = r := by omega
  have h2 : (r + 2 * m) / 2 = m := by omega
  rw [h1, h2]

theorem cnt_mod_two_pow_succ (b k : ℕ) :
    countNumOrbitalsInBits (b % 2 ^ (k + 1)) =
      (if b % 2 = 1 then 1 else 0) + countNumOrbitalsInBits (b / 2 % 2 ^ k) := by
  rw [mod_two_pow_succ, cnt_two_mul_add (b % 2) _ (Nat.mod_lt b (by omega))]

theorem cnt_mod_pow_add (a : ℕ) :
    ∀ b d, countNumOrbitalsInBits (b % 2 ^ (a + d)) =
      countNumOrbitalsInBits (b % 2 ^ a) +
        countNumOrbitalsInBits ((b >>> a) % 2 ^ d) := by
  induction a with
  | zero =>
    intro b d
    rw [Nat.zero_add, Nat.pow_zero, Nat.mod_one, Nat.shiftRight_zero]
    have h0 : countNumOrbitalsInBits 0 = 0 := rfl
    rw [h0, Nat.zero_add]
  | succ a ih =>
    intro b d
    have h1 : a + 1 + d = (a + d) + 1 := by omega
    rw [h1, cnt_mod_two_pow_succ b (a + d), ih (b / 2) d,
      cnt_mod_two_pow_succ b a, Nat.shiftRight_succ_inside]
    omega

theorem posStep_spec (g : ℕ) :
    ∀ bits index count, posStep bits index count (index + g) =
      (bits >>> g, index + g, count + countNumOrbitalsInBits (bits % 2 ^ g)) := by
  induction g with
  | zero =>
    intro bits index count
    unfold posStep
    have h : index + 0 - index = 0 := by omega
    rw [h]
    show (bits, index, count) = _
    have h0 : countNumOrbitalsInBits (bits % 2 ^ 0) = 0 := by
      rw [Nat.pow_zero, Nat.mod_one]
      rfl
    rw [h0]
    simp
  | succ g ih =>
    intro bits index count
    unfold posStep
    have h : index + (g + 1) - index = g + 1 := by omega
    rw [h]
    show posStepAux (g + 1) bits index count (index + (g + 1)) = _
    rw [posStepAux, if_pos (by omega)]
    have harg : index + (g + 1) = (index + 1) + g := by omega
    rw [harg]
    have hstep : posStepAux g (bits / 2) (index + 1)
        (count + if bits % 2 = 1 then 1 else 0) ((index + 1) + g) =
        posStep (bits / 2) (index + 1)
          (count + if bits % 2 = 1 then 1 else 0) ((index + 1) + g) := by
      unfold posStep
      have hg : (index + 1) + g - (index + 1) = g := by omega
      rw [hg]
    rw [hstep, ih (bits / 2) (index + 1) _]
    simp only [Prod.mk.injEq]
    refine ⟨?_, ?_, ?_⟩
    · rw [Nat.shiftRight_succ_inside]
    · trivial
    · rw [cnt_mod_two_pow_succ]
      omega

theorem posStep_spec2 (bits index count target : ℕ) (h : index ≤ target) :
    posStep bits index count target =
      (bits >>> (target - index), target,
        count + countNumOrbitalsInBits (bits % 2 ^ (target - index))) := by
  have hspec := posStep_spec (target - index) bits index count
  rw [Nat.add_sub_cancel' h] at hspec
  exact hspec

theorem gopAux_spec (bits0 : ℕ) :
    ∀ (l : List ℕ) (idx : ℕ), l.Sorted (· ≤ ·) → (∀ x ∈ l, idx ≤ x) →
      getOrbitalPositionsAux l (bits0 >>> idx) idx
          (countNumOrbitalsInBits (bits0 % 2 ^ idx)) =
        l.map (fun x => precedingCount bits0 x) := by
  intro l
  induction l with
  | nil => intro idx _ _; rfl
  | cons a t ih =>
    intro idx hs hb
    have hidxa : idx ≤ a := hb a (List.mem_cons_self a t)
    have hshift : (bits0 >>> idx) >>> (a - idx) = bits0 >>> a := by
      rw [← Nat.shiftRight_add]
      congr 1
      omega
    have hcnt : countNumOrbitalsInBits (bits0 % 2 ^ idx) +
        countNumOrbitalsInBits ((bits0 >>> idx) % 2 ^ (a - idx)) =
        precedingCount bits0 a := by
      unfold precedingCount
      rw [← cnt_mod_pow_add idx bits0 (a - idx), Nat.add_sub_cancel' hidxa]
    simp only [getOrbitalPositionsAux]
    rw [posStep_spec2 _ idx _ a hidxa]
    show (countNumOrbitalsInBits (bits0 % 2 ^ idx) +
        countNumOrbitalsInBits ((bits0 >>> idx) % 2 ^ (a - idx))) ::
      getOrbitalPositionsAux t ((bits0 >>> idx) >>> (a - idx)) a
        (countNumOrbitalsInBits (bits0 % 2 ^ idx) +
          countNumOrbitalsInBits ((bits0 >>> idx) % 2 ^ (a - idx))) =
      precedingCount bits0 a :: t.map (fun x => precedingCount bits0 x)
    rw [hcnt, hshift]
    congr 1
    have harg : precedingCount bits0 a = countNumOrbitalsInBits (bits0 % 2 ^ a) := rfl
    rw [harg]
    exact ih a hs.of_cons (List.rel_of_sorted_cons hs)

theorem getOrbitalPositions_eq_map (bits : ℕ) (l : List ℕ) (hs : l.Sorted (· ≤ ·)) :
    getOrbitalPositions bits l = l.map (fun x => precedingCount bits x) := by
  have h0 : countNumOrbitalsInBits (bits % 2 ^ 0) = 0 := by
    rw [Nat.pow_zero, Nat.mod_one]
    rfl
  have hspec := gopAux_spec bits l 0 hs (fun x _ => Nat.zero_le x)
  rw [Nat.shiftRight_zero, h0] at hspec
  exact hspec

theorem signFactor (p i : ℕ) :
    (if ((p : ℤ) - (i : ℤ)) % 2 = 1 then (-1 : ℤ) else 1) =
      (if p % 2 = 1 then (-1 : ℤ) else 1) * (if i % 2 = 1 then (-1 : ℤ) else 1) := by
  rcases Nat.mod_two_eq_zero_or_one p with hp | hp <;>
    rcases Nat.mod_two_eq_zero_or_one i with hi | hi
  · rw [if_neg (by omega), if_neg (by omega), if_neg (by omega)]
    norm_num
  · rw [if_pos (by omega), if_neg (by omega), if_pos (by omega)]
    norm_num
  · rw [if_pos (by omega), if_pos (by omega), if_neg (by omega)]
    norm_num
  · rw [if_neg (by omega), if_pos (by omega), if_pos (by omega)]
    norm_num

theorem signLoop_decomp : ∀ (l : List ℕ) (i : ℕ),
    signLoop l i = plainSign l * altSign i l.length := by
  intro l
  induction l with
  | nil => intro i; rfl
  | cons p rest ih =>
    intro i
    have h1 : signLoop (p :: rest) i =
        (if ((p : ℤ) - (i : ℤ)) % 2 = 1 then (-1 : ℤ) else 1) * signLoop rest (i + 1) := rfl
    have h2 : plainSign (p :: rest) =
        (if p % 2 = 1 then (-1 : ℤ) else 1) * plainSign rest := rfl
    have h3 : altSign i (p :: rest).length =
        (if i % 2 = 1 then (-1 : ℤ) else 1) * altSign (i + 1) rest.length := rfl
    rw [h1, h2, h3, ih (i + 1), signFactor]
    ring

theorem altSign_mul_self : ∀ (n i : ℕ), altSign i n * altSign i n = 1 := by
  intro n
  induction n with
  | zero => intro i; rfl
  | succ n ih =>
    intro i
    have h : altSign i (n + 1) =
        (if i % 2 = 1 then (-1 : ℤ) else 1) * altSign (i + 1) n := rfl
    have hc : (if i % 2 = 1 then (-1 : ℤ) else 1) *
        (if i % 2 = 1 then (-1 : ℤ) else 1) = 1 := by
      by_cases hi : i % 2 = 1 <;> simp [hi]
    have hr : ((if i % 2 = 1 then (-1 : ℤ) else 1) * altSign (i + 1) n) *
        ((if i % 2 = 1 then (-1 : ℤ) else 1) * altSign (i + 1) n) =
        ((if i % 2 = 1 then (-1 : ℤ) else 1) * (if i % 2 = 1 then (-1 : ℤ) else 1)) *
          (altSign (i + 1) n * altSign (i + 1) n) := by ring
    rw [h, hr, ih (i + 1), mul_one, hc]

theorem plainSign_map (bits : ℕ) (l : List ℕ) :
    plainSign (l.map (fun x => precedingCount bits x)) = claimedChannelSign bits l := by
  unfold plainSign claimedChannelSign
  rw [List.foldr_map]

theorem channelSign_eq (bits : ℕ) (l : List ℕ) (hs : l.Sorted (· ≤ ·)) :
    signLoop (getOrbitalPositions bits l) 0 =
      claimedChannelSign bits l * altSign 0 l.length := by
  rw [getOrbitalPositions_eq_map bits l hs, signLoop_decomp, plainSign_map,
    List.length_map]

theorem obtBits2ObtIndexList_sorted_le (bits : ℕ) :
    (obtBits2ObtIndexList bits).Sorted (· ≤ ·) :=
  (obtBits2ObtIndexList_sorted bits).imp le_of_lt

theorem obtListAux_length : ∀ f b i, (obtListAux f b i).length = cntAux f b := by
  intro f
  induction f with
  | zero => intro b i; rfl
  | succ f ih =>
    intro b i
    by_cases hb : b = 0
    · simp [obtListAux, cntAux, hb]
    · simp only [obtListAux, cntAux, if_neg hb, List.length_append]
      rw [ih (b / 2) (i + 1)]
      by_cases hbit : b % 2 = 1 <;> simp [hbit]

theorem length_obtBits2ObtIndexList (bits : ℕ) :
    (obtBits2ObtIndexList bits).length = countNumOrbitalsInBits bits :=
  obtListAux_length (bits + 1) bits 0

theorem obtBits2ObtIndexList_nodup (bits : ℕ) :
    (obtBits2ObtIndexList bits).Nodup :=
  (obtBits2ObtIndexList_sorted bits).imp ne_of_lt

theorem mem_bitFinset (bits i : ℕ) : i ∈ bitFinset bits ↔ bits.testBit i = true := by
  unfold bitFinset
  rw [Finset.mem_filter, Finset.mem_range]
  constructor
  · rintro ⟨_, h⟩
    exact h
  · intro h
    refine ⟨?_, h⟩
    have h2 := Nat.testBit_implies_ge h
    have h3 := Nat.lt_two_pow i
    omega

theorem toFinset_obtList (bits : ℕ) :
    (obtBits2ObtIndexList bits).toFinset = bitFinset bits := by
  ext i
  rw [List.mem_toFinset, mem_obtBits2ObtIndexList, mem_bitFinset]

theorem cnt_eq_card_bitFinset (bits : ℕ) :
    countNumOrbitalsInBits bits = (bitFinset bits).card := by
  rw [← toFinset_obtList,
    List.toFinset_card_of_nodup (obtBits2ObtIndexList_nodup bits),
    length_obtBits2ObtIndexList]

theorem bitFinset_sdiff (x y : ℕ) :
    bitFinset (x ^^^ (x &&& y)) = bitFinset x \ bitFinset y := by
  ext i
  rw [Finset.mem_sdiff, mem_bitFinset, mem_bitFinset, mem_bitFinset,
    Nat.testBit_xor, Nat.testBit_and]
  cases hx : x.testBit i <;> cases hy : y.testBit i <;> simp

theorem unique_lengths_eq (b1 b2 : ℕ)
    (hc : countNumOrbitalsInBits b1 = countNumOrbitalsInBits b2) :
    (uniqueOrbitalsInLists b1 b2).1.length = (uniqueOrbitalsInLists b1 b2).2.length := by
  unfold uniqueOrbitalsInLists uniqueOrbitalsInBits
  rw [length_obtBits2ObtIndexList, length_obtBits2ObtIndexList]
  rw [cnt_eq_card_bitFinset, cnt_eq_card_bitFinset, bitFinset_sdiff]
  have h2 : bitFinset (b2 ^^^ (b1 &&& b2)) = bitFinset b2 \ bitFinset b1 := by
    rw [Nat.and_comm]
    exact bitFinset_sdiff b2 b1
  rw [h2]
  have hca : (bitFinset b1).card = (bitFinset b2).card := by
    rw [← cnt_eq_card_bitFinset, ← cnt_eq_card_bitFinset]
    exact hc
  have e1 := Finset.card_sdiff_add_card_inter (bitFinset b1) (bitFinset b2)
  have e2 := Finset.card_sdiff_add_card_inter (bitFinset b2) (bitFinset b1)
  rw [Finset.inter_comm] at e2
  omega

/-- C1 counterexample: for `d1 = {0,1,2}α` and `d2` empty (unequal electron
counts), the code's sign is `+1` — the per-list-index correction
`(position - i) % 2` of `getSignToMoveOrbitalsToTheFront` leaves every term
even — while the claimed formula (flip when the count of preceding same-spin
occupied orbitals is odd) gives `-1` for the middle unique orbital. -/
theorem C1_counterexample :
    (getUniqueOrbitalsInListsPlusSign ⟨7, 0⟩ ⟨0, 0⟩).2.2 = 1 ∧
    claimedCombinedSign ⟨7, 0⟩ ⟨0, 0⟩ = -1 := by
  decide

/-- C1 amended: for determinant pairs with equal alpha and equal beta electron
counts (as holds for every pair the Slater-Condon evaluator compares), the
sign returned by `getUniqueOrbitalsInListsPlusSign` (and by
`getUniqueOrbitalsInMixIndexListsPlusSign`) equals `sign1 * sign2`, where
`sign_k` starts at `+1` and flips once for each orbital unique to determinant
`k` whose count of same-spin-channel occupied orbitals preceding it in
determinant `k`'s bit pattern (before any removal) is odd. -/
theorem C1_sign_eq_claimed (d1 d2 : Determinant)
    (ha : (getNumOrbitals d1).1 = (getNumOrbitals d2).1)
    (hb : (getNumOrbitals d1).2 = (getNumOrbitals d2).2) :
    (getUniqueOrbitalsInListsPlusSign d1 d2).2.2 = claimedCombinedSign d1 d2 ∧
    (getUniqueOrbitalsInMixIndexListsPlusSign d1 d2).2.2 = claimedCombinedSign d1 d2 := by
  have hsa1 : ((uniqueOrbitalsInLists d1.alphaObtBits d2.alphaObtBits).1).Sorted (· ≤ ·) :=
    obtBits2ObtIndexList_sorted_le _
  have hsa2 : ((uniqueOrbitalsInLists d1.alphaObtBits d2.alphaObtBits).2).Sorted (· ≤ ·) :=
    obtBits2ObtIndexList_sorted_le _
  have hsb1 : ((uniqueOrbitalsInLists d1.betaObtBits d2.betaObtBits).1).Sorted (· ≤ ·) :=
    obtBits2ObtIndexList_sorted_le _
  have hsb2 : ((uniqueOrbitalsInLists d1.betaObtBits d2.betaObtBits).2).Sorted (· ≤ ·) :=
    obtBits2ObtIndexList_sorted_le _
  have lenA : (uniqueOrbitalsInLists d1.alphaObtBits d2.alphaObtBits).1.length =
      (uniqueOrbitalsInLists d1.alphaObtBits d2.alphaObtBits).2.length :=
    unique_lengths_eq _ _ ha
  have lenB : (uniqueOrbitalsInLists d1.betaObtBits d2.betaObtBits).1.length =
      (uniqueOrbitalsInLists d1.betaObtBits d2.betaObtBits).2.length :=
    unique_lengths_eq _ _ hb
  have key : getSignToMoveOrbitalsToTheFront d1
      (uniqueOrbitalsInLists d1.alphaObtBits d2.alphaObtBits).1
      (uniqueOrbitalsInLists d1.betaObtBits d2.betaObtBits).1 *
    getSignToMoveOrbitalsToTheFront d2
      (uniqueOrbitalsInLists d1.alphaObtBits d2.alphaObtBits).2
      (uniqueOrbitalsInLists d1.betaObtBits d2.betaObtBits).2 =
      claimedCombinedSign d1 d2 := by
    unfold getSignToMoveOrbitalsToTheFront
    rw [channelSign_eq _ _ hsa1, channelSign_eq _ _ hsb1,
      channelSign_eq _ _ hsa2, channelSign_eq _ _ hsb2,
      ← lenA, ← lenB]
    unfold claimedCombinedSign
    have hA := altSign_mul_self
      (uniqueOrbitalsInLists d1.alphaObtBits d2.alphaObtBits).1.length 0
    have hB := altSign_mul_self
      (uniqueOrbitalsInLists d1.betaObtBits d2.betaObtBits).1.length 0
    calc
      (claimedChannelSign d1.alphaObtBits
            (uniqueOrbitalsInLists d1.alphaObtBits d2.alphaObtBits).1 *
          altSign 0 (uniqueOrbitalsInLists d1.alphaObtBits d2.alphaObtBits).1.length *
          (claimedChannelSign d1.betaObtBits
              (uniqueOrbitalsInLists d1.betaObtBits d2.betaObtBits).1 *
            altSign 0 (uniqueOrbitalsInLists d1.betaObtBits d2.betaObtBits).1.length)) *
        (claimedChannelSign d2.alphaObtBits
            (uniqueOrbitalsInLists d1.alphaObtBits d2.alphaObtBits).2 *
          altSign 0 (uniqueOrbitalsInLists d1.alphaObtBits d2.alphaObtBits).1.length *
          (claimedChannelSign d2.betaObtBits
              (uniqueOrbitalsInLists d1.betaObtBits d2.betaObtBits).2 *
            altSign 0 (uniqueOrbitalsInLists d1.betaObtBits d2.betaObtBits).1.length)) =
        ((claimedChannelSign d1.alphaObtBits
            (uniqueOrbitalsInLists d1.alphaObtBits d2.alphaObtBits).1 *
          claimedChannelSign d1.betaObtBits
            (uniqueOrbitalsInLists d1.betaObtBits d2.betaObtBits).1) *
        (claimedChannelSign d2.alphaObtBits
            (uniqueOrbitalsInLists d1.alphaObtBits d2.alphaObtBits).2 *
          claimedChannelSign d2.betaObtBits
            (uniqueOrbitalsInLists d1.betaObtBits d2.betaObtBits).2)) *
        ((altSign 0 (uniqueOrbitalsInLists d1.alphaObtBits d2.alphaObtBits).1.length *
            altSign 0 (uniqueOrbitalsInLists d1.alphaObtBits d2.alphaObtBits).1.length) *
          (altSign 0 (uniqueOrbitalsInLists d1.betaObtBits d2.betaObtBits).1.length *
            altSign 0 (uniqueOrbitalsInLists d1.betaObtBits d2.betaObtBits).1.length)) := by
        ring
      _ = ((claimedChannelSign d1.alphaObtBits
            (uniqueOrbitalsInLists d1.alphaObtBits d2.alphaObtBits).1 *
          claimedChannelSign d1.betaObtBits
            (uniqueOrbitalsInLists d1.betaObtBits d2.betaObtBits).1) *
        (claimedChannelSign d2.alphaObtBits
            (uniqueOrbitalsInLists d1.alphaObtBits d2.alphaObtBits).2 *
          claimedChannelSign d2.betaObtBits
            (uniqueOrbitalsInLists d1.betaObtBits d2.betaObtBits).2)) := by
        rw [hA, hB, mul_one, mul_one]
  exact ⟨key, key⟩

/-- C1 witness: the amended theorem applied at a concrete equal-count pair
(`{0,1}α{0}β` versus `{0,2}α{0}β`), where both evaluations give `-1`. -/
theorem C1_witness :
    ((getNumOrbitals ⟨3, 1⟩).1 = (getNumOrbitals ⟨5, 1⟩).1 ∧
      (getNumOrbitals ⟨3, 1⟩).2 = (getNumOrbitals ⟨5, 1⟩).2) ∧
    (getUniqueOrbitalsInListsPlusSign ⟨3, 1⟩ ⟨5, 1⟩).2.2 =
      claimedCombinedSign ⟨3, 1⟩ ⟨5, 1⟩ :=
  ⟨⟨by decide, by decide⟩,
   (C1_sign_eq_claimed ⟨3, 1⟩ ⟨5, 1⟩ (by decide) (by decide)).1⟩

end QEDCI
